import Mathlib

/-!
Verification of the Barnes-Hut quadtree simulation core (`src/main.cc`).

The C++ core consists of a point type (`point_t`), a quadtree node type
(`quad_node_t`), recursive insertion (`quad_node_insert`), bottom-up mass
aggregation (`quad_node_compute_mass`) and the opening-angle force traversal
(`quad_node_compute_force`).

Embedding conventions:
* `float` scalars in the tree-building code are modelled as `ℚ`
  (exact arithmetic); `sf::Vector2f` becomes `ℚ × ℚ`.
* `sf::FloatRect` with SFML's `contains` semantics (half-open box built with
  `min`/`max` of `left` and `left + width`) becomes the structure `FloatRect`.
* Heap nodes with four child pointers that are either all null or all set
  (the only writer of `children` is `quad_node_subdivide`, which sets all
  four) become an inductive type with a `leaf` and a four-child `node`
  constructor.  `quad_node_insert` resets `point` when subdividing, so
  internal nodes never carry a point and the `node` constructor has none.
* `quad_node_insert` recurses unboundedly on coincident points, hence it is
  modelled with explicit fuel, returning `none` when the fuel runs out;
  `none` for every fuel models divergence of the C++ recursion.
* The force evaluator uses `std::sqrt`; its idealized translation lives in
  `ℝ` (`Real.sqrt`), with the target point's velocity accumulating in
  `ℝ × ℝ`.  The tree data stays rational, exactly as produced by insertion
  and aggregation.
-/

namespace BarnesHut

/-- 2-D vector of rationals (models `sf::Vector2f` of the tree data). -/
abbrev Vec2 : Type := ℚ × ℚ

/-- `sf::FloatRect`. -/
structure FloatRect where
  left : ℚ
  top : ℚ
  width : ℚ
  height : ℚ
deriving DecidableEq

/-- SFML `FloatRect::contains`: half-open box with `min`/`max`
normalisation of the corners. -/
def FloatRect.contains (r : FloatRect) (v : Vec2) : Bool :=
  decide (min r.left (r.left + r.width) ≤ v.1) &&
  decide (v.1 < max r.left (r.left + r.width)) &&
  decide (min r.top (r.top + r.height) ≤ v.2) &&
  decide (v.2 < max r.top (r.top + r.height))

/-- `bh::point_t`. -/
structure point_t where
  mass : ℚ
  position : Vec2
  velocity : Vec2
deriving DecidableEq

/-- `bh::quad_node_t`.  `leaf` is a node whose four child pointers are all
null (`quad_node_is_leaf`); `node` has all four children set.  Fields keep
the C++ order: total mass, center of mass, boundary, then the payload. -/
inductive quad_node_t : Type where
  | leaf (total_mass : ℚ) (center_of_mass : Vec2) (boundary : FloatRect)
      (point : Option point_t)
  | node (total_mass : ℚ) (center_of_mass : Vec2) (boundary : FloatRect)
      (c0 c1 c2 c3 : quad_node_t)
deriving DecidableEq

namespace quad_node_t

def total_mass : quad_node_t → ℚ
  | .leaf tm _ _ _ => tm
  | .node tm _ _ _ _ _ _ => tm

def center_of_mass : quad_node_t → Vec2
  | .leaf _ cm _ _ => cm
  | .node _ cm _ _ _ _ _ => cm

def boundary : quad_node_t → FloatRect
  | .leaf _ _ b _ => b
  | .node _ _ b _ _ _ _ => b

end quad_node_t

/-- `bh::quad_node_init`: a fresh node has zero total mass, zero center of
mass, the given boundary, no point and no children. -/
def quad_node_init (b : FloatRect) : quad_node_t :=
  .leaf 0 (0, 0) b none

/-- `bh::quad_node_is_leaf`: all four children are null. -/
def quad_node_is_leaf : quad_node_t → Bool
  | .leaf _ _ _ _ => true
  | .node _ _ _ _ _ _ _ => false

/-- The four quadrant rectangles created by `bh::quad_node_subdivide`, in
the C++ array order: top-left, top-right, bottom-left, bottom-right. -/
def quadrant (b : FloatRect) : Fin 4 → FloatRect
  | 0 => ⟨b.left, b.top, b.width / 2, b.height / 2⟩
  | 1 => ⟨b.left + b.width / 2, b.top, b.width / 2, b.height / 2⟩
  | 2 => ⟨b.left, b.top + b.height / 2, b.width / 2, b.height / 2⟩
  | 3 => ⟨b.left + b.width / 2, b.top + b.height / 2, b.width / 2, b.height / 2⟩

/-- `bh::quad_node_insert`, with explicit recursion fuel (the C++ function
recurses without a depth bound; fuel exhaustion returns `none`).
Control flow mirrors the source: reject a point outside the boundary;
store it in an empty leaf; subdivide an occupied leaf, re-insert the saved
point into all four fresh children, then insert the new point into all four
children; on an internal node insert into all four children. -/
def quad_node_insert : Nat → quad_node_t → point_t → Option quad_node_t
  | 0, _, _ => none
  | fuel + 1, n, p =>
    if n.boundary.contains p.position then
      match n with
      | .leaf tm cm b none => some (.leaf tm cm b (some p))
      | .leaf tm cm b (some q) => do
          let d0 ← quad_node_insert fuel (quad_node_init (quadrant b 0)) q
          let d1 ← quad_node_insert fuel (quad_node_init (quadrant b 1)) q
          let d2 ← quad_node_insert fuel (quad_node_init (quadrant b 2)) q
          let d3 ← quad_node_insert fuel (quad_node_init (quadrant b 3)) q
          let e0 ← quad_node_insert fuel d0 p
          let e1 ← quad_node_insert fuel d1 p
          let e2 ← quad_node_insert fuel d2 p
          let e3 ← quad_node_insert fuel d3 p
          some (.node tm cm b e0 e1 e2 e3)
      | .node tm cm b x0 x1 x2 x3 => do
          let e0 ← quad_node_insert fuel x0 p
          let e1 ← quad_node_insert fuel x1 p
          let e2 ← quad_node_insert fuel x2 p
          let e3 ← quad_node_insert fuel x3 p
          some (.node tm cm b e0 e1 e2 e3)
    else
      some n

/-- Componentwise scaling of a rational vector (`sf::Vector2f * float`). -/
def qmul (v : Vec2) (s : ℚ) : Vec2 := (v.1 * s, v.2 * s)

/-- Componentwise division of a rational vector (`sf::Vector2f / float`). -/
def qdiv (v : Vec2) (s : ℚ) : Vec2 := (v.1 / s, v.2 / s)

/-- `bh::quad_node_compute_mass`.  A leaf holding a point gets that point's
mass and position; an empty leaf is returned unchanged; an internal node
accumulates its (recursively aggregated) children and divides the weighted
center sum by the total mass when that is positive. -/
def quad_node_compute_mass : quad_node_t → quad_node_t
  | .leaf tm cm b none => .leaf tm cm b none
  | .leaf _ _ b (some q) => .leaf q.mass q.position b (some q)
  | .node _ _ b x0 x1 x2 x3 =>
      let d0 := quad_node_compute_mass x0
      let d1 := quad_node_compute_mass x1
      let d2 := quad_node_compute_mass x2
      let d3 := quad_node_compute_mass x3
      let tm := d0.total_mass + d1.total_mass + d2.total_mass + d3.total_mass
      let cm := qmul d0.center_of_mass d0.total_mass +
                qmul d1.center_of_mass d1.total_mass +
                qmul d2.center_of_mass d2.total_mass +
                qmul d3.center_of_mass d3.total_mass
      .node tm (if 0 < tm then qdiv cm tm else cm) b d0 d1 d2 d3

/-- One tick's tree construction in `main`: a fresh root for the world
boundary, then `quad_node_insert` for each point in order. -/
def buildTree (b : FloatRect) (fuel : Nat) (ps : List point_t) :
    Option quad_node_t :=
  ps.foldlM (fun a p => quad_node_insert fuel a p) (quad_node_init b)

/-- The points stored in the subtree (order: point of a leaf, children
0,1,2,3 of a node). -/
def storedPoints : quad_node_t → List point_t
  | .leaf _ _ _ none => []
  | .leaf _ _ _ (some q) => [q]
  | .node _ _ _ x0 x1 x2 x3 =>
      storedPoints x0 ++ storedPoints x1 ++ storedPoints x2 ++ storedPoints x3

/-- Total mass actually stored in the subtree. -/
def massIn : quad_node_t → ℚ
  | .leaf _ _ _ none => 0
  | .leaf _ _ _ (some q) => q.mass
  | .node _ _ _ x0 x1 x2 x3 => massIn x0 + massIn x1 + massIn x2 + massIn x3

/-- Structural well-formedness maintained by the program: positive boundary
dimensions, children sitting exactly on the quadrants of their parent, and
any stored point lying inside its leaf's boundary. -/
def quad_node_wf : quad_node_t → Bool
  | .leaf _ _ b none => decide (0 < b.width) && decide (0 < b.height)
  | .leaf _ _ b (some q) =>
      decide (0 < b.width) && decide (0 < b.height) && b.contains q.position
  | .node _ _ b x0 x1 x2 x3 =>
      decide (0 < b.width) && decide (0 < b.height) &&
      decide (x0.boundary = quadrant b 0) && decide (x1.boundary = quadrant b 1) &&
      decide (x2.boundary = quadrant b 2) && decide (x3.boundary = quadrant b 3) &&
      quad_node_wf x0 && quad_node_wf x1 && quad_node_wf x2 && quad_node_wf x3

/-- Empty leaves carry zero `total_mass` (true for every tree the program
builds, since fresh nodes start at zero and insertion never writes masses). -/
def quad_node_zm : quad_node_t → Bool
  | .leaf tm _ _ none => decide (tm = 0)
  | .leaf _ _ _ (some _) => true
  | .node _ _ _ x0 x1 x2 x3 =>
      quad_node_zm x0 && quad_node_zm x1 && quad_node_zm x2 && quad_node_zm x3

/-- Quadrant index of a position inside a boundary with positive
dimensions: which of the four half-open quadrants the position falls in. -/
def qIdx (b : FloatRect) (v : Vec2) : Fin 4 :=
  if v.2 < b.top + b.height / 2 then
    (if v.1 < b.left + b.width / 2 then 0 else 1)
  else
    (if v.1 < b.left + b.width / 2 then 2 else 3)

/-! ### The force evaluator

`quad_node_compute_force` uses `std::sqrt`, so its translation lives in
`ℝ`.  The tree stays the rational tree produced by aggregation; the target
point's velocity accumulates in `ℝ × ℝ`. -/

/-- 2-D real vector (the target point's velocity accumulator). -/
abbrev RVec2 : Type := ℝ × ℝ

/-- Componentwise `sf::Vector2f * float` over `ℝ`. -/
noncomputable def rmul (v : RVec2) (s : ℝ) : RVec2 := (v.1 * s, v.2 * s)

/-- Componentwise `sf::Vector2f / float` over `ℝ`. -/
noncomputable def rdiv (v : RVec2) (s : ℝ) : RVec2 := (v.1 / s, v.2 / s)

/-- Euclidean magnitude of a 2-D real vector. -/
noncomputable def rnorm (v : RVec2) : ℝ := Real.sqrt (v.1 * v.1 + v.2 * v.2)

/-- `bh::THETA` (opening-angle threshold, `0.5f`). -/
noncomputable def THETA : ℝ := 1 / 2

/-- `bh::GRAVITY_CONSTANT` (`0.1f`). -/
noncomputable def GRAVITY_CONSTANT : ℝ := 1 / 10

/-- `bh::TIME_STEP` (`1.0f`). -/
noncomputable def TIME_STEP : ℝ := 1

/-- `bh::SOFTENING` (`15.0f`). -/
noncomputable def SOFTENING : ℝ := 15

/-- The target point as seen by the force evaluator: rational mass and
position (fixed during a tick), real-valued velocity accumulator. -/
@[ext]
structure fpoint where
  mass : ℚ
  position : Vec2
  velocity : RVec2

/-- `direction = node.center_of_mass - point->position`. -/
noncomputable def nodeDirection (cm : Vec2) (pos : Vec2) : RVec2 :=
  ((cm.1 : ℝ) - (pos.1 : ℝ), (cm.2 : ℝ) - (pos.2 : ℝ))

/-- `distance = sqrt (direction.x² + direction.y² + SOFTENING²)`. -/
noncomputable def nodeDistance (cm : Vec2) (pos : Vec2) : ℝ :=
  Real.sqrt ((nodeDirection cm pos).1 * (nodeDirection cm pos).1 +
    (nodeDirection cm pos).2 * (nodeDirection cm pos).2 +
    SOFTENING * SOFTENING)

/-- The velocity increment of the aggregate branch:
`direction / distance * force / point->mass * TIME_STEP` with
`force = GRAVITY_CONSTANT * node.total_mass * point->mass /
(distance * distance + SOFTENING * SOFTENING)`. -/
noncomputable def aggDelta (tm : ℚ) (cm : Vec2) (m : ℚ) (pos : Vec2) : RVec2 :=
  rmul
    (rdiv
      (rmul (rdiv (nodeDirection cm pos) (nodeDistance cm pos))
        (GRAVITY_CONSTANT * (tm : ℝ) * (m : ℝ) /
          (nodeDistance cm pos * nodeDistance cm pos + SOFTENING * SOFTENING)))
      (m : ℝ))
    TIME_STEP

open Classical in
/-- `bh::quad_node_compute_force`, with the opening-angle threshold as a
parameter (the program instantiates it with `THETA`).  Skip a node with
zero total mass or whose center of mass coincides with the point's
position; aggregate when the node is a leaf or `boundary.width / distance
< theta`; otherwise recurse through the four children in order (the C++
loop mutates the point's velocity, modelled as sequential application). -/
noncomputable def quad_node_compute_force_theta (theta : ℝ) :
    quad_node_t → fpoint → fpoint
  | .leaf tm cm _ _, p =>
      if tm = 0 ∨ p.position = cm then p
      else { p with velocity := p.velocity + aggDelta tm cm p.mass p.position }
  | .node tm cm b x0 x1 x2 x3, p =>
      if tm = 0 ∨ p.position = cm then p
      else if (b.width : ℝ) / nodeDistance cm p.position < theta then
        { p with velocity := p.velocity + aggDelta tm cm p.mass p.position }
      else
        quad_node_compute_force_theta theta x3
          (quad_node_compute_force_theta theta x2
            (quad_node_compute_force_theta theta x1
              (quad_node_compute_force_theta theta x0 p)))

/-- The program's force evaluator (threshold fixed to `THETA`). -/
noncomputable def quad_node_compute_force : quad_node_t → fpoint → fpoint :=
  quad_node_compute_force_theta THETA

/-- Velocity increment contributed by a whole subtree to a point of a given
mass at a given position (what the traversal adds to the velocity). -/
noncomputable def velDelta (theta : ℝ) (n : quad_node_t) (m : ℚ) (pos : Vec2) :
    RVec2 :=
  (quad_node_compute_force_theta theta n ⟨m, pos, (0, 0)⟩).velocity

open Classical in
/-- Number of force contributions computed at leaf nodes (exact pairwise
interactions) during a traversal with threshold `theta`; mirrors the branch
structure of `quad_node_compute_force_theta`. -/
noncomputable def countExact (theta : ℝ) : quad_node_t → fpoint → ℕ
  | .leaf tm cm _ _, p => if tm = 0 ∨ p.position = cm then 0 else 1
  | .node tm cm b x0 x1 x2 x3, p =>
      if tm = 0 ∨ p.position = cm then 0
      else if (b.width : ℝ) / nodeDistance cm p.position < theta then 0
      else
        countExact theta x0 p + countExact theta x1 p +
        countExact theta x2 p + countExact theta x3 p

/-! ### Concrete instances used by the spec's scenarios -/

/-- The world boundary of `main`: `{0, 0, 800, 800}`. -/
def b800 : FloatRect := ⟨0, 0, 800, 800⟩

/-- First point of the end-to-end scenario: mass 1 at `(0,0)`, at rest. -/
def ptA : point_t := ⟨1, (0, 0), (0, 0)⟩

/-- Second point of the end-to-end scenario: mass 1 at `(100,0)`, at rest. -/
def ptB : point_t := ⟨1, (100, 0), (0, 0)⟩

/-- An in-boundary point for the boundary-drop scenario. -/
def ptIn : point_t := ⟨1, (100, 100), (0, 0)⟩

/-- The out-of-boundary point of the boundary-drop scenario: `(900,900)`. -/
def ptOut : point_t := ⟨1, (900, 900), (0, 0)⟩

/-- The tree of one tick of the end-to-end scenario (fuel 10 suffices). -/
def treeTwo : quad_node_t :=
  (buildTree b800 10 [ptA, ptB]).getD (quad_node_init b800)

/-- The aggregated tree of the end-to-end scenario. -/
def treeTwoAgg : quad_node_t := quad_node_compute_mass treeTwo

/-- The tree of the boundary-drop scenario (`ptOut` is dropped). -/
def treeDrop : quad_node_t :=
  (buildTree b800 10 [ptIn, ptOut]).getD (quad_node_init b800)

/-- The aggregated tree of the boundary-drop scenario. -/
def treeDropAgg : quad_node_t := quad_node_compute_mass treeDrop

/-- `ptA` as a force-evaluation target. -/
noncomputable def fpA : fpoint := ⟨1, (0, 0), (0, 0)⟩

/-- `ptB` as a force-evaluation target. -/
noncomputable def fpB : fpoint := ⟨1, (100, 0), (0, 0)⟩

/-- `ptOut` as a force-evaluation target. -/
noncomputable def fpOut : fpoint := ⟨1, (900, 900), (0, 0)⟩

/-- The level at which the two scenario points separate: quadrant cells of
width 100 holding `ptA` at `(0,0)` and `ptB` at `(100,0)`. -/
def T2sep : quad_node_t :=
  .node 0 (0, 0) ⟨0, 0, 200, 200⟩
    (.leaf 0 (0, 0) ⟨0, 0, 100, 100⟩ (some ptA))
    (.leaf 0 (0, 0) ⟨100, 0, 100, 100⟩ (some ptB))
    (quad_node_init ⟨0, 100, 100, 100⟩)
    (quad_node_init ⟨100, 100, 100, 100⟩)

/-- Middle spine node of the two-point scenario tree. -/
def T2mid : quad_node_t :=
  .node 0 (0, 0) ⟨0, 0, 400, 400⟩ T2sep
    (quad_node_init ⟨200, 0, 200, 200⟩)
    (quad_node_init ⟨0, 200, 200, 200⟩)
    (quad_node_init ⟨200, 200, 200, 200⟩)

/-- Root of the two-point scenario tree before aggregation. -/
def T2root : quad_node_t :=
  .node 0 (0, 0) b800 T2mid
    (quad_node_init ⟨400, 0, 400, 400⟩)
    (quad_node_init ⟨0, 400, 400, 400⟩)
    (quad_node_init ⟨400, 400, 400, 400⟩)

/-- Separating node of the two-point tree after aggregation. -/
def T2sepA : quad_node_t :=
  .node 2 (50, 0) ⟨0, 0, 200, 200⟩
    (.leaf 1 (0, 0) ⟨0, 0, 100, 100⟩ (some ptA))
    (.leaf 1 (100, 0) ⟨100, 0, 100, 100⟩ (some ptB))
    (quad_node_init ⟨0, 100, 100, 100⟩)
    (quad_node_init ⟨100, 100, 100, 100⟩)

/-- Middle spine node after aggregation. -/
def T2midA : quad_node_t :=
  .node 2 (50, 0) ⟨0, 0, 400, 400⟩ T2sepA
    (quad_node_init ⟨200, 0, 200, 200⟩)
    (quad_node_init ⟨0, 200, 200, 200⟩)
    (quad_node_init ⟨200, 200, 200, 200⟩)

/-- Root of the two-point scenario tree after aggregation: total mass 2,
center of mass `(50, 0)`. -/
def T2rootA : quad_node_t :=
  .node 2 (50, 0) b800 T2midA
    (quad_node_init ⟨400, 0, 400, 400⟩)
    (quad_node_init ⟨0, 400, 400, 400⟩)
    (quad_node_init ⟨400, 400, 400, 400⟩)

/-- Child selector of a four-child node. -/
def child4 (x0 x1 x2 x3 : quad_node_t) : Fin 4 → quad_node_t
  | 0 => x0
  | 1 => x1
  | 2 => x2
  | 3 => x3

/-- Shape of the tree obtained by inserting a second point into a fresh
leaf that stores a first point (positions distinct): a spine of internal
nodes whose other three children are fresh empty leaves, ending in a node
holding the two point-leaves in two distinct child slots. -/
inductive TwoTree (pA pB : point_t) : quad_node_t → Prop where
  | sep (tm : ℚ) (cm : Vec2) (b : FloatRect) (x0 x1 x2 x3 : quad_node_t)
      (i j : Fin 4) (hij : i ≠ j)
      (hA : ∃ r, child4 x0 x1 x2 x3 i = .leaf 0 (0, 0) r (some pA))
      (hB : ∃ r, child4 x0 x1 x2 x3 j = .leaf 0 (0, 0) r (some pB))
      (hE : ∀ k, k ≠ i → k ≠ j →
        ∃ r, child4 x0 x1 x2 x3 k = quad_node_init r) :
      TwoTree pA pB (.node tm cm b x0 x1 x2 x3)
  | deep (tm : ℚ) (cm : Vec2) (b : FloatRect) (x0 x1 x2 x3 : quad_node_t)
      (i : Fin 4)
      (hD : TwoTree pA pB (child4 x0 x1 x2 x3 i))
      (hE : ∀ k, k ≠ i → ∃ r, child4 x0 x1 x2 x3 k = quad_node_init r) :
      TwoTree pA pB (.node tm cm b x0 x1 x2 x3)

/-! ### Basic geometry lemmas -/

lemma contains_explicit (l t w h : ℚ) (v : Vec2) (hw : 0 < w) (hh : 0 < h) :
    (FloatRect.mk l t w h).contains v = true ↔
      l ≤ v.1 ∧ v.1 < l + w ∧ t ≤ v.2 ∧ v.2 < t + h := by
  unfold FloatRect.contains
  rw [min_eq_left (by linarith), max_eq_right (by linarith),
    min_eq_left (by linarith), max_eq_right (by linarith)]
  simp [and_assoc]

lemma contains_iff (b : FloatRect) (v : Vec2) (hw : 0 < b.width)
    (hh : 0 < b.height) :
    b.contains v = true ↔
      b.left ≤ v.1 ∧ v.1 < b.left + b.width ∧
      b.top ≤ v.2 ∧ v.2 < b.top + b.height := by
  cases b
  exact contains_explicit _ _ _ _ _ hw hh

lemma quadrant_width (b : FloatRect) (i : Fin 4) :
    (quadrant b i).width = b.width / 2 := by
  fin_cases i <;> rfl

lemma quadrant_height (b : FloatRect) (i : Fin 4) :
    (quadrant b i).height = b.height / 2 := by
  fin_cases i <;> rfl

/-- A point in some quadrant of `b` is in `b`. -/
lemma contains_of_quadrant (b : FloatRect) (v : Vec2) (hw : 0 < b.width)
    (hh : 0 < b.height) (i : Fin 4)
    (hi : (quadrant b i).contains v = true) : b.contains v = true := by
  rw [contains_iff _ _ hw hh]
  fin_cases i <;>
    · simp only [quadrant] at hi
      rw [contains_explicit _ _ _ _ _ (by linarith) (by linarith)] at hi
      refine ⟨by linarith [hi.1], by linarith [hi.2.1],
        by linarith [hi.2.2.1], by linarith [hi.2.2.2]⟩

/-- A point of `b` lies in the quadrant selected by `qIdx`. -/
lemma contains_qIdx (b : FloatRect) (v : Vec2) (hw : 0 < b.width)
    (hh : 0 < b.height) (hv : b.contains v = true) :
    (quadrant b (qIdx b v)).contains v = true := by
  rw [contains_iff _ _ hw hh] at hv
  obtain ⟨h1, h2, h3, h4⟩ := hv
  unfold qIdx
  by_cases hx : v.1 < b.left + b.width / 2 <;>
    by_cases hy : v.2 < b.top + b.height / 2 <;>
      simp only [hx, hy, if_true, if_false] <;>
        simp only [quadrant] <;>
          rw [contains_explicit _ _ _ _ _ (by linarith) (by linarith)] <;>
            refine ⟨by linarith, by linarith, by linarith, by linarith⟩

/-- At most one quadrant contains a given point. -/
lemma quadrant_unique (b : FloatRect) (v : Vec2) (hw : 0 < b.width)
    (hh : 0 < b.height) (i j : Fin 4)
    (hi : (quadrant b i).contains v = true)
    (hj : (quadrant b j).contains v = true) : i = j := by
  fin_cases i <;> fin_cases j <;>
    first
      | rfl
      | (exfalso
         simp only [quadrant] at hi hj
         rw [contains_explicit _ _ _ _ _ (by linarith) (by linarith)] at hi hj
         linarith [hi.1, hi.2.1, hi.2.2.1, hi.2.2.2,
           hj.1, hj.2.1, hj.2.2.1, hj.2.2.2])

/-- A quadrant contains a point of `b` exactly when it is the `qIdx`
quadrant. -/
lemma contains_quadrant_iff (b : FloatRect) (v : Vec2) (hw : 0 < b.width)
    (hh : 0 < b.height) (hv : b.contains v = true) (i : Fin 4) :
    (quadrant b i).contains v = true ↔ i = qIdx b v := by
  constructor
  · intro hi
    exact quadrant_unique b v hw hh i _ hi (contains_qIdx b v hw hh hv)
  · intro h
    subst h
    exact contains_qIdx b v hw hh hv

/-! ### Insertion characterization -/

lemma insert_zero (n : quad_node_t) (p : point_t) :
    quad_node_insert 0 n p = none := rfl

lemma insert_out (fuel : Nat) (n : quad_node_t) (p : point_t)
    (h : n.boundary.contains p.position = false) :
    quad_node_insert (fuel + 1) n p = some n := by
  simp [quad_node_insert, h]

lemma insert_leaf_empty (fuel : Nat) (tm : ℚ) (cm : Vec2) (b : FloatRect)
    (p : point_t) (h : b.contains p.position = true) :
    quad_node_insert (fuel + 1) (.leaf tm cm b none) p =
      some (.leaf tm cm b (some p)) := by
  simp [quad_node_insert, quad_node_t.boundary, h]

/-- Inserting into a fresh node either stores the point or leaves the node
unchanged, in one step. -/
lemma insert_init (fuel : Nat) (r : FloatRect) (p : point_t) :
    quad_node_insert (fuel + 1) (quad_node_init r) p =
      some (if r.contains p.position then .leaf 0 (0, 0) r (some p)
            else quad_node_init r) := by
  by_cases h : r.contains p.position = true
  · rw [if_pos h]
    exact insert_leaf_empty fuel 0 (0, 0) r p h
  · rw [if_neg h]
    exact insert_out fuel _ p (by simpa using h)

lemma insert_node_eq_some (fuel : Nat) (tm : ℚ) (cm : Vec2) (b : FloatRect)
    (x0 x1 x2 x3 : quad_node_t) (p : point_t) (t : quad_node_t)
    (h : b.contains p.position = true) :
    quad_node_insert (fuel + 1) (.node tm cm b x0 x1 x2 x3) p = some t ↔
      ∃ e0 e1 e2 e3,
        quad_node_insert fuel x0 p = some e0 ∧
        quad_node_insert fuel x1 p = some e1 ∧
        quad_node_insert fuel x2 p = some e2 ∧
        quad_node_insert fuel x3 p = some e3 ∧
        quad_node_t.node tm cm b e0 e1 e2 e3 = t := by
  simp only [quad_node_insert, quad_node_t.boundary, h, if_true,
    Option.bind_eq_some, Option.some.injEq, bind]
  tauto

lemma insert_leaf_occ_eq_some (fuel : Nat) (tm : ℚ) (cm : Vec2)
    (b : FloatRect) (q p : point_t) (t : quad_node_t)
    (h : b.contains p.position = true) :
    quad_node_insert (fuel + 1) (.leaf tm cm b (some q)) p = some t ↔
      ∃ d0 d1 d2 d3 e0 e1 e2 e3,
        quad_node_insert fuel (quad_node_init (quadrant b 0)) q = some d0 ∧
        quad_node_insert fuel (quad_node_init (quadrant b 1)) q = some d1 ∧
        quad_node_insert fuel (quad_node_init (quadrant b 2)) q = some d2 ∧
        quad_node_insert fuel (quad_node_init (quadrant b 3)) q = some d3 ∧
        quad_node_insert fuel d0 p = some e0 ∧
        quad_node_insert fuel d1 p = some e1 ∧
        quad_node_insert fuel d2 p = some e2 ∧
        quad_node_insert fuel d3 p = some e3 ∧
        quad_node_t.node tm cm b e0 e1 e2 e3 = t := by
  simp only [quad_node_insert, quad_node_t.boundary, h, if_true,
    Option.bind_eq_some, Option.some.injEq, bind]
  tauto

@[simp] lemma total_mass_leaf (tm : ℚ) (cm : Vec2) (b : FloatRect)
    (pt : Option point_t) : (quad_node_t.leaf tm cm b pt).total_mass = tm := rfl

@[simp] lemma total_mass_node (tm : ℚ) (cm : Vec2) (b : FloatRect)
    (x0 x1 x2 x3 : quad_node_t) :
    (quad_node_t.node tm cm b x0 x1 x2 x3).total_mass = tm := rfl

@[simp] lemma center_of_mass_leaf (tm : ℚ) (cm : Vec2) (b : FloatRect)
    (pt : Option point_t) :
    (quad_node_t.leaf tm cm b pt).center_of_mass = cm := rfl

@[simp] lemma center_of_mass_node (tm : ℚ) (cm : Vec2) (b : FloatRect)
    (x0 x1 x2 x3 : quad_node_t) :
    (quad_node_t.node tm cm b x0 x1 x2 x3).center_of_mass = cm := rfl

@[simp] lemma boundary_leaf (tm : ℚ) (cm : Vec2) (b : FloatRect)
    (pt : Option point_t) : (quad_node_t.leaf tm cm b pt).boundary = b := rfl

@[simp] lemma boundary_node (tm : ℚ) (cm : Vec2) (b : FloatRect)
    (x0 x1 x2 x3 : quad_node_t) :
    (quad_node_t.node tm cm b x0 x1 x2 x3).boundary = b := rfl

lemma fin4_cases (i : Fin 4) : i = 0 ∨ i = 1 ∨ i = 2 ∨ i = 3 := by
  fin_cases i <;> simp

/-- More fuel never changes a successful insertion. -/
lemma insert_mono :
    ∀ (fuel : Nat) (n : quad_node_t) (p : point_t) (t : quad_node_t),
      quad_node_insert fuel n p = some t →
      quad_node_insert (fuel + 1) n p = some t := by
  intro fuel
  induction fuel with
  | zero => intro n p t h; simp [insert_zero] at h
  | succ f ih =>
    intro n p t h
    by_cases hc : n.boundary.contains p.position = true
    · cases n with
      | leaf tm cm b pt =>
        cases pt with
        | none =>
          rw [insert_leaf_empty f tm cm b p hc] at h
          rw [insert_leaf_empty (f + 1) tm cm b p hc]
          exact h
        | some q =>
          rw [insert_leaf_occ_eq_some f tm cm b q p t hc] at h
          rw [insert_leaf_occ_eq_some (f + 1) tm cm b q p t hc]
          obtain ⟨d0, d1, d2, d3, e0, e1, e2, e3,
            h0, h1, h2, h3, h4, h5, h6, h7, ht⟩ := h
          exact ⟨d0, d1, d2, d3, e0, e1, e2, e3,
            ih _ q _ h0, ih _ q _ h1, ih _ q _ h2, ih _ q _ h3,
            ih _ p _ h4, ih _ p _ h5, ih _ p _ h6, ih _ p _ h7, ht⟩
      | node tm cm b x0 x1 x2 x3 =>
        rw [insert_node_eq_some f tm cm b x0 x1 x2 x3 p t hc] at h
        rw [insert_node_eq_some (f + 1) tm cm b x0 x1 x2 x3 p t hc]
        obtain ⟨e0, e1, e2, e3, h0, h1, h2, h3, ht⟩ := h
        exact ⟨e0, e1, e2, e3, ih _ p _ h0, ih _ p _ h1, ih _ p _ h2,
          ih _ p _ h3, ht⟩
    · have hc' : n.boundary.contains p.position = false := by
        simpa using hc
      rw [insert_out f n p hc'] at h
      rw [insert_out (f + 1) n p hc']
      exact h

lemma insert_mono_le (f f' : Nat) (n : quad_node_t) (p : point_t)
    (t : quad_node_t) (hle : f ≤ f')
    (h : quad_node_insert f n p = some t) :
    quad_node_insert f' n p = some t := by
  induction f' with
  | zero =>
    have : f = 0 := by omega
    subst this
    exact h
  | succ g ih =>
    rcases Nat.lt_or_ge f (g + 1) with hlt | hge
    · exact insert_mono g n p t (ih (by omega))
    · have : f = g + 1 := by omega
      subst this
      exact h

/-- Insertion never changes a node's boundary. -/
lemma insert_boundary (fuel : Nat) (n : quad_node_t) (p : point_t)
    (t : quad_node_t) (h : quad_node_insert fuel n p = some t) :
    t.boundary = n.boundary := by
  cases fuel with
  | zero => simp [insert_zero] at h
  | succ f =>
    by_cases hc : n.boundary.contains p.position = true
    · cases n with
      | leaf tm cm b pt =>
        cases pt with
        | none =>
          rw [insert_leaf_empty f tm cm b p hc] at h
          cases h
          rfl
        | some q =>
          rw [insert_leaf_occ_eq_some f tm cm b q p t hc] at h
          obtain ⟨_, _, _, _, _, _, _, _, _, _, _, _, _, _, _, _, ht⟩ := h
          rw [← ht]
          rfl
      | node tm cm b x0 x1 x2 x3 =>
        rw [insert_node_eq_some f tm cm b x0 x1 x2 x3 p t hc] at h
        obtain ⟨_, _, _, _, _, _, _, _, ht⟩ := h
        rw [← ht]
        rfl
    · have hc' : n.boundary.contains p.position = false := by simpa using hc
      rw [insert_out f n p hc'] at h
      cases h
      rfl

lemma wf_leaf_none (tm : ℚ) (cm : Vec2) (b : FloatRect) :
    quad_node_wf (.leaf tm cm b none) = true ↔
      0 < b.width ∧ 0 < b.height := by
  simp [quad_node_wf]

lemma wf_leaf_some (tm : ℚ) (cm : Vec2) (b : FloatRect) (q : point_t) :
    quad_node_wf (.leaf tm cm b (some q)) = true ↔
      0 < b.width ∧ 0 < b.height ∧ b.contains q.position = true := by
  simp [quad_node_wf, and_assoc]

lemma wf_node (tm : ℚ) (cm : Vec2) (b : FloatRect)
    (x0 x1 x2 x3 : quad_node_t) :
    quad_node_wf (.node tm cm b x0 x1 x2 x3) = true ↔
      0 < b.width ∧ 0 < b.height ∧
      x0.boundary = quadrant b 0 ∧ x1.boundary = quadrant b 1 ∧
      x2.boundary = quadrant b 2 ∧ x3.boundary = quadrant b 3 ∧
      quad_node_wf x0 = true ∧ quad_node_wf x1 = true ∧
      quad_node_wf x2 = true ∧ quad_node_wf x3 = true := by
  simp [quad_node_wf, and_assoc]

lemma wf_init (r : FloatRect) (hw : 0 < r.width) (hh : 0 < r.height) :
    quad_node_wf (quad_node_init r) = true := by
  rw [quad_node_init, wf_leaf_none]
  exact ⟨hw, hh⟩

/-- Insertion preserves structural well-formedness. -/
lemma insert_wf :
    ∀ (fuel : Nat) (n : quad_node_t) (p : point_t) (t : quad_node_t),
      quad_node_insert fuel n p = some t → quad_node_wf n = true →
      quad_node_wf t = true := by
  intro fuel
  induction fuel with
  | zero => intro n p t h; simp [insert_zero] at h
  | succ f ih =>
    intro n p t h hwf
    by_cases hc : n.boundary.contains p.position = true
    · cases n with
      | leaf tm cm b pt =>
        obtain ⟨hw, hh⟩ :
            0 < b.width ∧ 0 < b.height := by
          cases pt with
          | none => exact (wf_leaf_none tm cm b).mp hwf
          | some q =>
            have := (wf_leaf_some tm cm b q).mp hwf
            exact ⟨this.1, this.2.1⟩
        cases pt with
        | none =>
          rw [insert_leaf_empty f tm cm b p hc] at h
          cases h
          rw [wf_leaf_some]
          exact ⟨hw, hh, hc⟩
        | some q =>
          rw [insert_leaf_occ_eq_some f tm cm b q p t hc] at h
          obtain ⟨d0, d1, d2, d3, e0, e1, e2, e3,
            h0, h1, h2, h3, h4, h5, h6, h7, ht⟩ := h
          have hqw : ∀ i : Fin 4, 0 < (quadrant b i).width := by
            intro i
            rw [quadrant_width]
            linarith
          have hqh : ∀ i : Fin 4, 0 < (quadrant b i).height := by
            intro i
            rw [quadrant_height]
            linarith
          have hbd : ∀ (i : Fin 4) (d e : quad_node_t),
              quad_node_insert f (quad_node_init (quadrant b i)) q = some d →
              quad_node_insert f d p = some e →
              e.boundary = quadrant b i := by
            intro i d e hd he
            rw [insert_boundary f d p e he, insert_boundary f _ q d hd]
            rfl
          have hwfe : ∀ (i : Fin 4) (d e : quad_node_t),
              quad_node_insert f (quad_node_init (quadrant b i)) q = some d →
              quad_node_insert f d p = some e →
              quad_node_wf e = true := by
            intro i d e hd he
            exact ih d p e he (ih _ q d hd (wf_init _ (hqw i) (hqh i)))
          rw [← ht, wf_node]
          exact ⟨hw, hh, hbd 0 d0 e0 h0 h4, hbd 1 d1 e1 h1 h5,
            hbd 2 d2 e2 h2 h6, hbd 3 d3 e3 h3 h7,
            hwfe 0 d0 e0 h0 h4, hwfe 1 d1 e1 h1 h5,
            hwfe 2 d2 e2 h2 h6, hwfe 3 d3 e3 h3 h7⟩
      | node tm cm b x0 x1 x2 x3 =>
        rw [insert_node_eq_some f tm cm b x0 x1 x2 x3 p t hc] at h
        obtain ⟨e0, e1, e2, e3, h0, h1, h2, h3, ht⟩ := h
        rw [wf_node] at hwf
        obtain ⟨hw, hh, hb0, hb1, hb2, hb3, hx0, hx1, hx2, hx3⟩ := hwf
        rw [← ht, wf_node]
        exact ⟨hw, hh,
          (insert_boundary f x0 p e0 h0).trans hb0,
          (insert_boundary f x1 p e1 h1).trans hb1,
          (insert_boundary f x2 p e2 h2).trans hb2,
          (insert_boundary f x3 p e3 h3).trans hb3,
          ih x0 p e0 h0 hx0, ih x1 p e1 h1 hx1,
          ih x2 p e2 h2 hx2, ih x3 p e3 h3 hx3⟩
    · have hc' : n.boundary.contains p.position = false := by simpa using hc
      rw [insert_out f n p hc'] at h
      cases h
      exact hwf

lemma zm_node (tm : ℚ) (cm : Vec2) (b : FloatRect)
    (x0 x1 x2 x3 : quad_node_t) :
    quad_node_zm (.node tm cm b x0 x1 x2 x3) = true ↔
      quad_node_zm x0 = true ∧ quad_node_zm x1 = true ∧
      quad_node_zm x2 = true ∧ quad_node_zm x3 = true := by
  simp [quad_node_zm, and_assoc]

/-- Insertion preserves `quad_node_zm` (it never writes mass fields). -/
lemma insert_zm :
    ∀ (fuel : Nat) (n : quad_node_t) (p : point_t) (t : quad_node_t),
      quad_node_insert fuel n p = some t → quad_node_zm n = true →
      quad_node_zm t = true := by
  intro fuel
  induction fuel with
  | zero => intro n p t h; simp [insert_zero] at h
  | succ f ih =>
    intro n p t h hz
    by_cases hc : n.boundary.contains p.position = true
    · cases n with
      | leaf tm cm b pt =>
        cases pt with
        | none =>
          rw [insert_leaf_empty f tm cm b p hc] at h
          cases h
          simp [quad_node_zm]
        | some q =>
          rw [insert_leaf_occ_eq_some f tm cm b q p t hc] at h
          obtain ⟨d0, d1, d2, d3, e0, e1, e2, e3,
            h0, h1, h2, h3, h4, h5, h6, h7, ht⟩ := h
          have hinit : ∀ r : FloatRect,
              quad_node_zm (quad_node_init r) = true := by
            intro r
            simp [quad_node_init, quad_node_zm]
          rw [← ht, zm_node]
          exact ⟨ih d0 p e0 h4 (ih _ q d0 h0 (hinit _)),
            ih d1 p e1 h5 (ih _ q d1 h1 (hinit _)),
            ih d2 p e2 h6 (ih _ q d2 h2 (hinit _)),
            ih d3 p e3 h7 (ih _ q d3 h3 (hinit _))⟩
      | node tm cm b x0 x1 x2 x3 =>
        rw [insert_node_eq_some f tm cm b x0 x1 x2 x3 p t hc] at h
        obtain ⟨e0, e1, e2, e3, h0, h1, h2, h3, ht⟩ := h
        rw [zm_node] at hz
        rw [← ht, zm_node]
        exact ⟨ih x0 p e0 h0 hz.1, ih x1 p e1 h1 hz.2.1,
          ih x2 p e2 h2 hz.2.2.1, ih x3 p e3 h3 hz.2.2.2⟩
    · have hc' : n.boundary.contains p.position = false := by simpa using hc
      rw [insert_out f n p hc'] at h
      cases h
      exact hz

/-- Exactly one quadrant receives a mass contribution. -/
lemma sum_ite_quadrants (b : FloatRect) (hw : 0 < b.width)
    (hh : 0 < b.height) (z : Vec2) (hz : b.contains z = true) (c : ℚ) :
    (if (quadrant b 0).contains z = true then c else 0) +
    (if (quadrant b 1).contains z = true then c else 0) +
    (if (quadrant b 2).contains z = true then c else 0) +
    (if (quadrant b 3).contains z = true then c else 0) = c := by
  rw [if_congr (contains_quadrant_iff b z hw hh hz 0) rfl rfl,
    if_congr (contains_quadrant_iff b z hw hh hz 1) rfl rfl,
    if_congr (contains_quadrant_iff b z hw hh hz 2) rfl rfl,
    if_congr (contains_quadrant_iff b z hw hh hz 3) rfl rfl]
  rcases fin4_cases (qIdx b z) with h | h | h | h <;> rw [h] <;> simp

/-- Mass accounting for a single insertion: a successful insert adds the
point's mass when the point is inside the boundary, nothing otherwise. -/
lemma insert_massIn :
    ∀ (fuel : Nat) (n : quad_node_t) (p : point_t) (t : quad_node_t),
      quad_node_insert fuel n p = some t → quad_node_wf n = true →
      massIn t = massIn n +
        (if n.boundary.contains p.position = true then p.mass else 0) := by
  intro fuel
  induction fuel with
  | zero => intro n p t h; simp [insert_zero] at h
  | succ f ih =>
    intro n p t h hwf
    by_cases hc : n.boundary.contains p.position = true
    · rw [if_pos hc]
      cases n with
      | leaf tm cm b pt =>
        cases pt with
        | none =>
          rw [insert_leaf_empty f tm cm b p hc] at h
          cases h
          simp [massIn]
        | some q =>
          have hws := (wf_leaf_some tm cm b q).mp hwf
          obtain ⟨hw, hh, hq⟩ := hws
          rw [insert_leaf_occ_eq_some f tm cm b q p t hc] at h
          obtain ⟨d0, d1, d2, d3, e0, e1, e2, e3,
            h0, h1, h2, h3, h4, h5, h6, h7, ht⟩ := h
          have hqw : ∀ i : Fin 4, 0 < (quadrant b i).width := by
            intro i; rw [quadrant_width]; linarith
          have hqh : ∀ i : Fin 4, 0 < (quadrant b i).height := by
            intro i; rw [quadrant_height]; linarith
          have hd : ∀ (i : Fin 4) (d : quad_node_t),
              quad_node_insert f (quad_node_init (quadrant b i)) q = some d →
              massIn d =
                (if (quadrant b i).contains q.position = true
                 then q.mass else 0) := by
            intro i d hdi
            have := ih _ q d hdi (wf_init _ (hqw i) (hqh i))
            simpa [quad_node_init, massIn] using this
          have he : ∀ (i : Fin 4) (d e : quad_node_t),
              quad_node_insert f (quad_node_init (quadrant b i)) q = some d →
              quad_node_insert f d p = some e →
              massIn e = massIn d +
                (if (quadrant b i).contains p.position = true
                 then p.mass else 0) := by
            intro i d e hdi hei
            have hwd : quad_node_wf d = true :=
              insert_wf f _ q d hdi (wf_init _ (hqw i) (hqh i))
            have hbd : d.boundary = quadrant b i := by
              rw [insert_boundary f _ q d hdi]
              rfl
            have := ih d p e hei hwd
            rwa [hbd] at this
          have hb : b.contains p.position = true := hc
          have hbq : b.contains q.position = true := hq
          rw [← ht]
          show massIn e0 + massIn e1 + massIn e2 + massIn e3 = q.mass + p.mass
          rw [he 0 d0 e0 h0 h4, he 1 d1 e1 h1 h5, he 2 d2 e2 h2 h6,
            he 3 d3 e3 h3 h7, hd 0 d0 h0, hd 1 d1 h1, hd 2 d2 h2, hd 3 d3 h3]
          have s1 := sum_ite_quadrants b hw hh q.position hbq q.mass
          have s2 := sum_ite_quadrants b hw hh p.position hb p.mass
          linarith
      | node tm cm b x0 x1 x2 x3 =>
        rw [insert_node_eq_some f tm cm b x0 x1 x2 x3 p t hc] at h
        obtain ⟨e0, e1, e2, e3, h0, h1, h2, h3, ht⟩ := h
        rw [wf_node] at hwf
        obtain ⟨hw, hh, hb0, hb1, hb2, hb3, hx0, hx1, hx2, hx3⟩ := hwf
        have he0 := ih x0 p e0 h0 hx0
        have he1 := ih x1 p e1 h1 hx1
        have he2 := ih x2 p e2 h2 hx2
        have he3 := ih x3 p e3 h3 hx3
        rw [hb0] at he0
        rw [hb1] at he1
        rw [hb2] at he2
        rw [hb3] at he3
        rw [← ht]
        show massIn e0 + massIn e1 + massIn e2 + massIn e3 =
          massIn x0 + massIn x1 + massIn x2 + massIn x3 + p.mass
        have s2 := sum_ite_quadrants b hw hh p.position hc p.mass
        linarith
    · have hc' : n.boundary.contains p.position = false := by simpa using hc
      rw [insert_out f n p hc'] at h
      cases h
      simp [hc']

/-- After aggregation the root's `total_mass` is the stored mass. -/
lemma compute_mass_total (n : quad_node_t) (hz : quad_node_zm n = true) :
    (quad_node_compute_mass n).total_mass = massIn n := by
  induction n with
  | leaf tm cm b pt =>
    cases pt with
    | none =>
      have : tm = 0 := by simpa [quad_node_zm] using hz
      simp [quad_node_compute_mass, massIn, this]
    | some q => simp [quad_node_compute_mass, massIn]
  | node tm cm b x0 x1 x2 x3 ih0 ih1 ih2 ih3 =>
    rw [zm_node] at hz
    simp only [quad_node_compute_mass, massIn, total_mass_node]
    rw [ih0 hz.1, ih1 hz.2.1, ih2 hz.2.2.1, ih3 hz.2.2.2]

/-- Invariants and mass accounting along a whole build. -/
lemma build_aux :
    ∀ (ps : List point_t) (t0 t : quad_node_t) (fuel : Nat),
      quad_node_wf t0 = true → quad_node_zm t0 = true →
      ps.foldlM (fun a p => quad_node_insert fuel a p) t0 = some t →
      quad_node_wf t = true ∧ quad_node_zm t = true ∧
      t.boundary = t0.boundary ∧
      massIn t = massIn t0 +
        ((ps.filter fun p => t0.boundary.contains p.position).map
          point_t.mass).sum := by
  intro ps
  induction ps with
  | nil =>
    intro t0 t fuel hw hz h
    simp only [List.foldlM_nil, pure, Option.some.injEq] at h
    subst h
    simp [hw, hz]
  | cons p ps ih =>
    intro t0 t fuel hw hz h
    simp only [List.foldlM_cons, bind, Option.bind_eq_some] at h
    obtain ⟨t1, h1, h2⟩ := h
    have hwf1 := insert_wf fuel t0 p t1 h1 hw
    have hz1 := insert_zm fuel t0 p t1 h1 hz
    have hbd1 := insert_boundary fuel t0 p t1 h1
    have hm1 := insert_massIn fuel t0 p t1 h1 hw
    obtain ⟨hwf, hz2, hbd, hm⟩ := ih t1 t fuel hwf1 hz1 h2
    refine ⟨hwf, hz2, hbd.trans hbd1, ?_⟩
    rw [hm, hm1, hbd1]
    by_cases hc : t0.boundary.contains p.position = true
    · simp [hc]
      ring
    · have hc' : t0.boundary.contains p.position = false := by simpa using hc
      simp [hc']

/-- Aggregation is idempotent on every tree: the second pass recomputes
exactly the values the first pass wrote. -/
lemma compute_mass_idem (n : quad_node_t) :
    quad_node_compute_mass (quad_node_compute_mass n) =
      quad_node_compute_mass n := by
  induction n with
  | leaf tm cm b pt => cases pt <;> rfl
  | node tm cm b x0 x1 x2 x3 ih0 ih1 ih2 ih3 =>
    simp only [quad_node_compute_mass]
    rw [ih0, ih1, ih2, ih3]

/-- Claim C1: for every finite sequence of points at pairwise distinct
positions inserted into a fresh root node, after `quad_node_compute_mass`
runs on the root, the root's `total_mass` equals the sum of the masses of
exactly those points whose positions were contained in the root's
boundary; points outside were dropped and contribute nothing. -/
theorem C1_mass_conservation (b : FloatRect) (ps : List point_t)
    (fuel : Nat) (t : quad_node_t) (hw : 0 < b.width) (hh : 0 < b.height)
    (hdistinct : ps.Pairwise fun p q => p.position ≠ q.position)
    (hbuild : buildTree b fuel ps = some t) :
    (quad_node_compute_mass t).total_mass =
      ((ps.filter fun p => b.contains p.position).map point_t.mass).sum := by
  obtain ⟨hwf, hz, hbd, hm⟩ := build_aux ps (quad_node_init b) t fuel
    (wf_init b hw hh) (by simp [quad_node_init, quad_node_zm]) hbuild
  rw [compute_mass_total t hz, hm]
  simp [quad_node_init, massIn]

/-- Claim C9: for every tree built by any sequence of insertions into a
fresh root, running `quad_node_compute_mass` a second time on the same
unmodified tree leaves every node's `total_mass` and `center_of_mass`
identical to their values after the first run. -/
theorem C9_idempotent_aggregation (b : FloatRect) (ps : List point_t)
    (fuel : Nat) (t : quad_node_t)
    (hbuild : buildTree b fuel ps = some t) :
    quad_node_compute_mass (quad_node_compute_mass t) =
      quad_node_compute_mass t :=
  compute_mass_idem t

/-! ### Force-evaluation lemmas -/

@[simp] lemma is_leaf_leaf (tm : ℚ) (cm : Vec2) (b : FloatRect)
    (pt : Option point_t) : quad_node_is_leaf (.leaf tm cm b pt) = true := rfl

@[simp] lemma is_leaf_node (tm : ℚ) (cm : Vec2) (b : FloatRect)
    (x0 x1 x2 x3 : quad_node_t) :
    quad_node_is_leaf (.node tm cm b x0 x1 x2 x3) = false := rfl

lemma force_eq : quad_node_compute_force = quad_node_compute_force_theta THETA :=
  rfl

lemma force_leaf (theta : ℝ) (tm : ℚ) (cm : Vec2) (b : FloatRect)
    (pt : Option point_t) (p : fpoint) :
    quad_node_compute_force_theta theta (.leaf tm cm b pt) p =
      if tm = 0 ∨ p.position = cm then p
      else { p with velocity := p.velocity + aggDelta tm cm p.mass p.position } :=
  rfl

lemma force_node (theta : ℝ) (tm : ℚ) (cm : Vec2) (b : FloatRect)
    (x0 x1 x2 x3 : quad_node_t) (p : fpoint) :
    quad_node_compute_force_theta theta (.node tm cm b x0 x1 x2 x3) p =
      if tm = 0 ∨ p.position = cm then p
      else if (b.width : ℝ) / nodeDistance cm p.position < theta then
        { p with velocity := p.velocity + aggDelta tm cm p.mass p.position }
      else
        quad_node_compute_force_theta theta x3
          (quad_node_compute_force_theta theta x2
            (quad_node_compute_force_theta theta x1
              (quad_node_compute_force_theta theta x0 p))) :=
  rfl

/-- Skip case: zero total mass or coincident center of mass contributes
nothing and recursion stops. -/
lemma force_skip (theta : ℝ) (n : quad_node_t) (p : fpoint)
    (h : n.total_mass = 0 ∨ p.position = n.center_of_mass) :
    quad_node_compute_force_theta theta n p = p := by
  cases n with
  | leaf tm cm b pt =>
    simp only [total_mass_leaf, center_of_mass_leaf] at h
    rw [force_leaf, if_pos h]
  | node tm cm b x0 x1 x2 x3 =>
    simp only [total_mass_node, center_of_mass_node] at h
    rw [force_node, if_pos h]

/-- The force evaluator only writes the velocity; mass and position pass
through unchanged, and the velocity moves by a quantity (`velDelta`) that
does not depend on the incoming velocity. -/
lemma force_shift (theta : ℝ) (n : quad_node_t) :
    ∀ (m : ℚ) (pos : Vec2) (v : RVec2),
      quad_node_compute_force_theta theta n ⟨m, pos, v⟩ =
        ⟨m, pos, v + velDelta theta n m pos⟩ := by
  induction n with
  | leaf tm cm b pt =>
    intro m pos v
    rw [velDelta, force_leaf, force_leaf]
    by_cases h : tm = 0 ∨ (fpoint.mk m pos v).position = cm
    · have h0 : tm = 0 ∨ (fpoint.mk m pos (0, 0)).position = cm := h
      rw [if_pos h, if_pos h0]
      simp [Prod.ext_iff]
    · have h0 : ¬(tm = 0 ∨ (fpoint.mk m pos (0, 0)).position = cm) := h
      rw [if_neg h, if_neg h0]
      simp only [fpoint.mk.injEq, true_and]
      simp [Prod.ext_iff]
  | node tm cm b x0 x1 x2 x3 ih0 ih1 ih2 ih3 =>
    intro m pos v
    rw [velDelta, force_node, force_node]
    by_cases h : tm = 0 ∨ (fpoint.mk m pos v).position = cm
    · have h0 : tm = 0 ∨ (fpoint.mk m pos (0, 0)).position = cm := h
      rw [if_pos h, if_pos h0]
      simp [Prod.ext_iff]
    · have h0 : ¬(tm = 0 ∨ (fpoint.mk m pos (0, 0)).position = cm) := h
      rw [if_neg h, if_neg h0]
      by_cases hr : (b.width : ℝ) / nodeDistance cm pos < theta
      · have hr1 : (b.width : ℝ) /
            nodeDistance cm (fpoint.mk m pos v).position < theta := hr
        have hr0 : (b.width : ℝ) /
            nodeDistance cm (fpoint.mk m pos (0, 0)).position < theta := hr
        rw [if_pos hr1, if_pos hr0]
        simp only [fpoint.mk.injEq, true_and]
        simp [Prod.ext_iff]
      · have hr1 : ¬((b.width : ℝ) /
            nodeDistance cm (fpoint.mk m pos v).position < theta) := hr
        have hr0 : ¬((b.width : ℝ) /
            nodeDistance cm (fpoint.mk m pos (0, 0)).position < theta) := hr
        rw [if_neg hr1, if_neg hr0]
        rw [ih0, ih1, ih2, ih3, ih0, ih1, ih2, ih3]
        simp only [fpoint.mk.injEq, true_and]
        simp [Prod.ext_iff]
        constructor <;> ring

/-- `nodeDistance` is at least the softening constant. -/
lemma softening_le_nodeDistance (cm pos : Vec2) :
    SOFTENING ≤ nodeDistance cm pos := by
  rw [nodeDistance, SOFTENING]
  rw [Real.le_sqrt' (by norm_num)]
  nlinarith [mul_self_nonneg (nodeDirection cm pos).1,
    mul_self_nonneg (nodeDirection cm pos).2]

lemma nodeDistance_pos (cm pos : Vec2) : 0 < nodeDistance cm pos :=
  lt_of_lt_of_le (by rw [SOFTENING]; norm_num) (softening_le_nodeDistance cm pos)

/-- Claim C8: a node with zero `total_mass`, or whose center of mass
exactly equals the target position, contributes nothing and stops the
recursion; and the distance is at least `SOFTENING > 0` while the force
denominator `distance² + softening²` is positive, so no division by zero
occurs. -/
theorem C8_zero_mass_skip_no_div_by_zero (n : quad_node_t) (p : fpoint) :
    ((n.total_mass = 0 ∨ p.position = n.center_of_mass) →
      quad_node_compute_force n p = p) ∧
    (0 : ℝ) < SOFTENING ∧
    SOFTENING ≤ nodeDistance n.center_of_mass p.position ∧
    0 < nodeDistance n.center_of_mass p.position *
        nodeDistance n.center_of_mass p.position + SOFTENING * SOFTENING := by
  have hpos := nodeDistance_pos n.center_of_mass p.position
  refine ⟨fun h => force_skip THETA n p h, by rw [SOFTENING]; norm_num,
    softening_le_nodeDistance _ _, ?_⟩
  have hS : (0 : ℝ) < SOFTENING := by rw [SOFTENING]; norm_num
  nlinarith

/-- Witness for C8 at a concrete node and point: a fresh (zero-mass) root
exerts no force. -/
theorem C8_witness :
    quad_node_compute_force (quad_node_init b800) fpOut = fpOut :=
  (C8_zero_mass_skip_no_div_by_zero (quad_node_init b800) fpOut).1 (Or.inl rfl)

/-- Cancellation of the target mass in the acceleration. -/
lemma aggDelta_mass_indep (tm : ℚ) (cm pos : Vec2) (m m' : ℚ)
    (hm : m ≠ 0) (hm' : m' ≠ 0) :
    aggDelta tm cm m pos = aggDelta tm cm m' pos := by
  have key : ∀ (a : ℝ), a ≠ 0 → ∀ x g e : ℝ,
      x * (g * a / e) / a = x * (g / e) := by
    intro a ha x g e
    rw [mul_div_assoc, div_div, mul_div_mul_right g e ha]
  have hmr : (m : ℝ) ≠ 0 := by exact_mod_cast hm
  have hmr' : (m' : ℝ) ≠ 0 := by exact_mod_cast hm'
  simp only [aggDelta, rmul, rdiv, Prod.mk.injEq]
  constructor
  · rw [key _ hmr, key _ hmr']
  · rw [key _ hmr, key _ hmr']

/-- The velocity increment of a whole traversal does not depend on the
target's mass (for nonzero masses). -/
lemma velDelta_mass_indep (theta : ℝ) (n : quad_node_t) :
    ∀ (m m' : ℚ) (pos : Vec2), m ≠ 0 → m' ≠ 0 →
      velDelta theta n m pos = velDelta theta n m' pos := by
  induction n with
  | leaf tm cm b pt =>
    intro m m' pos hm hm'
    rw [velDelta, velDelta, force_leaf, force_leaf]
    by_cases h : tm = 0 ∨ (fpoint.mk m pos (0, 0)).position = cm
    · have h' : tm = 0 ∨ (fpoint.mk m' pos (0, 0)).position = cm := h
      rw [if_pos h, if_pos h']
    · have h' : ¬(tm = 0 ∨ (fpoint.mk m' pos (0, 0)).position = cm) := h
      rw [if_neg h, if_neg h']
      show (0, 0) + aggDelta tm cm m pos = (0, 0) + aggDelta tm cm m' pos
      rw [aggDelta_mass_indep tm cm pos m m' hm hm']
  | node tm cm b x0 x1 x2 x3 ih0 ih1 ih2 ih3 =>
    intro m m' pos hm hm'
    rw [velDelta, velDelta, force_node, force_node]
    by_cases h : tm = 0 ∨ (fpoint.mk m pos (0, 0)).position = cm
    · have h' : tm = 0 ∨ (fpoint.mk m' pos (0, 0)).position = cm := h
      rw [if_pos h, if_pos h']
    · have h' : ¬(tm = 0 ∨ (fpoint.mk m' pos (0, 0)).position = cm) := h
      rw [if_neg h, if_neg h']
      by_cases hr : (b.width : ℝ) / nodeDistance cm pos < theta
      · have hr1 : (b.width : ℝ) /
            nodeDistance cm (fpoint.mk m pos (0, 0)).position < theta := hr
        have hr2 : (b.width : ℝ) /
            nodeDistance cm (fpoint.mk m' pos (0, 0)).position < theta := hr
        rw [if_pos hr1, if_pos hr2]
        show (0, 0) + aggDelta tm cm m pos = (0, 0) + aggDelta tm cm m' pos
        rw [aggDelta_mass_indep tm cm pos m m' hm hm']
      · have hr1 : ¬((b.width : ℝ) /
            nodeDistance cm (fpoint.mk m pos (0, 0)).position < theta) := hr
        have hr2 : ¬((b.width : ℝ) /
            nodeDistance cm (fpoint.mk m' pos (0, 0)).position < theta) := hr
        rw [if_neg hr1, if_neg hr2]
        rw [force_shift, force_shift, force_shift, force_shift,
          force_shift, force_shift, force_shift, force_shift]
        simp only [fpoint.mk.injEq, true_and]
        rw [ih0 m m' pos hm hm', ih1 m m' pos hm hm',
          ih2 m m' pos hm hm', ih3 m m' pos hm hm']

/-- Claim C10: the velocity update is independent of the target point's
own mass; two targets with identical positions and velocities but
different positive masses receive identical velocity changes, because the
target mass appears as a factor in the force and is divided back out in
the acceleration. -/
theorem C10_velocity_update_mass_independent (n : quad_node_t)
    (p q : fpoint) (hpos : p.position = q.position)
    (hvel : p.velocity = q.velocity) (hp : 0 < p.mass) (hq : 0 < q.mass) :
    (quad_node_compute_force n p).velocity =
      (quad_node_compute_force n q).velocity := by
  obtain ⟨mp, posp, vp⟩ := p
  obtain ⟨mq, posq, vq⟩ := q
  simp only at hpos hvel hp hq
  subst hpos
  subst hvel
  rw [force_eq, force_shift, force_shift]
  simp only
  rw [velDelta_mass_indep THETA n mp mq posp (ne_of_gt hp) (ne_of_gt hq)]

/-- Witness for C10: identical velocity changes for masses 1 and 2 at the
same position against the two-point tree. -/
theorem C10_witness :
    (quad_node_compute_force treeTwoAgg ⟨1, (3, 4), (0, 0)⟩).velocity =
      (quad_node_compute_force treeTwoAgg ⟨2, (3, 4), (0, 0)⟩).velocity :=
  C10_velocity_update_mass_independent treeTwoAgg _ _ rfl rfl
    (by norm_num) (by norm_num)

/-- Lowering the opening-angle threshold never loses exact (leaf-level)
contributions. -/
lemma countExact_mono (theta theta' : ℝ) (hle : theta' ≤ theta) :
    ∀ (n : quad_node_t) (p : fpoint),
      countExact theta n p ≤ countExact theta' n p := by
  intro n
  induction n with
  | leaf tm cm b pt =>
    intro p
    simp only [countExact]
    exact le_refl _
  | node tm cm b x0 x1 x2 x3 ih0 ih1 ih2 ih3 =>
    intro p
    simp only [countExact]
    by_cases h : tm = 0 ∨ p.position = cm
    · rw [if_pos h, if_pos h]
    · rw [if_neg h, if_neg h]
      by_cases hr' : (b.width : ℝ) / nodeDistance cm p.position < theta'
      · have hr : (b.width : ℝ) / nodeDistance cm p.position < theta :=
          lt_of_lt_of_le hr' hle
        rw [if_pos hr, if_pos hr']
      · rw [if_neg hr']
        by_cases hr : (b.width : ℝ) / nodeDistance cm p.position < theta
        · rw [if_pos hr]
          exact Nat.zero_le _
        · rw [if_neg hr]
          exact Nat.add_le_add (Nat.add_le_add (Nat.add_le_add
            (ih0 p) (ih1 p)) (ih2 p)) (ih3 p)

/-- Claim C6: for a fixed aggregated tree and target point and thresholds
`0 < theta' ≤ theta`, the traversal with `theta'` computes at least as
many force contributions at leaf nodes (exact pairwise interactions) as
the traversal with `theta`. -/
theorem C6_opening_angle_monotonicity (n : quad_node_t) (p : fpoint)
    (theta theta' : ℝ) (hpos : 0 < theta') (hle : theta' ≤ theta) :
    countExact theta n p ≤ countExact theta' n p :=
  countExact_mono theta theta' hle n p

/-- Witness for C6 with `theta' = 1/4 ≤ 1/2 = theta` on the two-point
tree. -/
theorem C6_witness :
    countExact (1 / 2) treeTwoAgg fpA ≤ countExact (1 / 4) treeTwoAgg fpA :=
  C6_opening_angle_monotonicity treeTwoAgg fpA (1 / 2) (1 / 4)
    (by norm_num) (by norm_num)

/-- Claim C3: for a node with nonzero total mass whose center of mass
differs from the target position, the force evaluator treats the node as a
single aggregate mass exactly when the node is a leaf or
`boundary.width / distance < THETA`; in that case it adds
`(direction/distance) * (G * total_mass * mass / (distance² + softening²))
/ mass * TIME_STEP` to the velocity, and otherwise it recurses into all
four children and sums their contributions. -/
theorem C3_force_branches (n : quad_node_t) (p : fpoint)
    (h1 : ¬ n.total_mass = 0) (h2 : ¬ p.position = n.center_of_mass) :
    (quad_node_is_leaf n = true ∨
        (n.boundary.width : ℝ) /
          nodeDistance n.center_of_mass p.position < THETA →
      quad_node_compute_force n p =
        ⟨p.mass, p.position, p.velocity +
            rmul (rdiv (rmul (rdiv (nodeDirection n.center_of_mass p.position)
                  (nodeDistance n.center_of_mass p.position))
                (GRAVITY_CONSTANT * (n.total_mass : ℝ) * (p.mass : ℝ) /
                  (nodeDistance n.center_of_mass p.position *
                      nodeDistance n.center_of_mass p.position +
                    SOFTENING * SOFTENING)))
              (p.mass : ℝ)) TIME_STEP⟩) ∧
    (∀ (tm : ℚ) (cm : Vec2) (b : FloatRect) (x0 x1 x2 x3 : quad_node_t),
      n = .node tm cm b x0 x1 x2 x3 →
      ¬ ((b.width : ℝ) / nodeDistance cm p.position < THETA) →
      (quad_node_compute_force n p).velocity =
        p.velocity + velDelta THETA x0 p.mass p.position +
          velDelta THETA x1 p.mass p.position +
          velDelta THETA x2 p.mass p.position +
          velDelta THETA x3 p.mass p.position) := by
  constructor
  · intro hagg
    cases n with
    | leaf tm cm b pt =>
      simp only [total_mass_leaf] at h1
      simp only [center_of_mass_leaf] at h2
      rw [force_eq, force_leaf, if_neg (not_or.mpr ⟨h1, h2⟩)]
      rfl
    | node tm cm b x0 x1 x2 x3 =>
      simp only [total_mass_node] at h1
      simp only [center_of_mass_node] at h2
      rcases hagg with hl | hr
      · simp at hl
      · rw [force_eq, force_node, if_neg (not_or.mpr ⟨h1, h2⟩)]
        simp only [center_of_mass_node, boundary_node] at hr ⊢
        rw [if_pos hr]
        rfl
  · intro tm cm b x0 x1 x2 x3 hn hr
    subst hn
    simp only [total_mass_node] at h1
    simp only [center_of_mass_node] at h2
    obtain ⟨m, pos, v⟩ := p
    simp only at h2 hr ⊢
    rw [force_eq, force_node, if_neg (not_or.mpr ⟨h1, h2⟩), if_neg hr]
    rw [force_shift, force_shift, force_shift, force_shift]

lemma b800_w : (0 : ℚ) < b800.width := by norm_num [b800]

lemma b800_h : (0 : ℚ) < b800.height := by norm_num [b800]

lemma contains_b800_ptIn : b800.contains ptIn.position = true := by
  rw [contains_iff _ _ b800_w b800_h]
  norm_num [b800, ptIn]

lemma contains_b800_ptOut : b800.contains ptOut.position = false := by
  have h : ¬ (b800.contains ptOut.position = true) := by
    rw [contains_iff _ _ b800_w b800_h]
    norm_num [b800, ptOut]
  simpa using h

/-- The boundary-drop build: `ptIn` is stored, `ptOut` is dropped. -/
lemma treeDrop_build :
    buildTree b800 10 [ptIn, ptOut] =
      some (.leaf 0 (0, 0) b800 (some ptIn)) := by
  have h1 : quad_node_insert 10 (quad_node_init b800) ptIn =
      some (.leaf 0 (0, 0) b800 (some ptIn)) := by
    apply insert_mono_le 1 10 _ _ _ (by norm_num)
    have h := insert_init 0 b800 ptIn
    rw [if_pos contains_b800_ptIn] at h
    exact h
  have h2 : quad_node_insert 10
      (quad_node_t.leaf 0 (0, 0) b800 (some ptIn)) ptOut =
      some (.leaf 0 (0, 0) b800 (some ptIn)) := by
    apply insert_mono_le 1 10 _ _ _ (by norm_num)
    exact insert_out 0 _ ptOut contains_b800_ptOut
  simp only [buildTree, List.foldlM_cons, List.foldlM_nil, bind]
  rw [h1]
  simp only [Option.bind]
  rw [h2]
  rfl

/-- The aggregated boundary-drop tree is the single-point leaf holding
`ptIn`: `ptOut` was silently dropped at insertion. -/
lemma treeDropAgg_eq :
    treeDropAgg = .leaf 1 (100, 100) b800 (some ptIn) := by
  simp only [treeDropAgg, treeDrop, treeDrop_build, Option.getD,
    quad_node_compute_mass]
  norm_num [ptIn]

/-- Witness for C3 at a concrete leaf and point: the aggregated
boundary-drop tree is a single-point leaf, and the exact-interaction
branch applies to the far-away target. -/
theorem C3_witness :
    quad_node_compute_force treeDropAgg fpOut =
      ⟨fpOut.mass, fpOut.position, fpOut.velocity +
          rmul (rdiv (rmul (rdiv
                (nodeDirection treeDropAgg.center_of_mass fpOut.position)
                (nodeDistance treeDropAgg.center_of_mass fpOut.position))
              (GRAVITY_CONSTANT * (treeDropAgg.total_mass : ℝ) *
                  (fpOut.mass : ℝ) /
                (nodeDistance treeDropAgg.center_of_mass fpOut.position *
                    nodeDistance treeDropAgg.center_of_mass fpOut.position +
                  SOFTENING * SOFTENING)))
            (fpOut.mass : ℝ)) TIME_STEP⟩ :=
  (C3_force_branches treeDropAgg fpOut
      (by rw [treeDropAgg_eq]; norm_num)
      (by rw [treeDropAgg_eq]; norm_num [fpOut, Prod.ext_iff])).1
    (Or.inl (by rw [treeDropAgg_eq]; rfl))

/-- The dropped point still receives a nonzero force from the tree built
out of the remaining points: its x-velocity becomes negative. -/
lemma dropped_point_receives_force :
    (quad_node_compute_force treeDropAgg fpOut).velocity.1 < 0 := by
  rw [treeDropAgg_eq, force_eq, force_leaf,
    if_neg (by norm_num [fpOut, Prod.ext_iff])]
  have hd : 0 < nodeDistance (100, 100) (900, 900) := nodeDistance_pos _ _
  have hE : 0 < nodeDistance (100, 100) (900, 900) *
      nodeDistance (100, 100) (900, 900) + SOFTENING * SOFTENING := by
    have hS : (0 : ℝ) < SOFTENING := by rw [SOFTENING]; norm_num
    nlinarith
  have hdir : (nodeDirection (100, 100) (900, 900)).1 = -800 := by
    simp [nodeDirection]
    norm_num
  have hfp : fpOut.position = ((900 : ℚ), (900 : ℚ)) := rfl
  have hfm : fpOut.mass = 1 := rfl
  have hfv : fpOut.velocity = ((0 : ℝ), (0 : ℝ)) := rfl
  simp only [hfp, hfm, hfv, rmul, rdiv, aggDelta, Prod.fst_add]
  rw [hdir]
  have hneg : -800 / nodeDistance (100, 100) (900, 900) < 0 :=
    div_neg_of_neg_of_pos (by norm_num) hd
  have hposf : 0 < GRAVITY_CONSTANT * ((1 : ℚ) : ℝ) * ((1 : ℚ) : ℝ) /
      (nodeDistance (100, 100) (900, 900) *
        nodeDistance (100, 100) (900, 900) + SOFTENING * SOFTENING) := by
    apply div_pos
    · rw [GRAVITY_CONSTANT]
      norm_num
    · exact hE
  have := mul_neg_of_neg_of_pos hneg hposf
  have hts : TIME_STEP = 1 := rfl
  rw [hts]
  push_cast
  push_cast at this
  nlinarith

/-- Counterexample to claim C7 as stated: with world boundary
`[0,0,800,800]`, building from `[ptIn, ptOut]` silently drops the point at
`(900,900)` (the tree is the single-point leaf holding `ptIn`), yet force
evaluation still changes the dropped point's velocity: it does not
"receive zero force". -/
theorem C7_counterexample :
    buildTree b800 10 [ptIn, ptOut] =
      some (.leaf 0 (0, 0) b800 (some ptIn)) ∧
    (quad_node_compute_force treeDropAgg fpOut).velocity.1 < 0 :=
  ⟨treeDrop_build, dropped_point_receives_force⟩

/-- Claim C7 (amended): for every node and point outside the node's
boundary, `quad_node_insert` is a no-op — the point is silently dropped
and the tree is unchanged, so the dropped point exerts zero influence on
other points' forces and its own stored position and velocity are
unaffected; however it still receives whatever force the tree of the
remaining points exerts at its position. -/
theorem C7_outside_insert_no_op (n : quad_node_t) (p : point_t)
    (fuel : Nat) (h : n.boundary.contains p.position = false) :
    quad_node_insert (fuel + 1) n p = some n :=
  insert_out fuel n p h

/-- Witness for C7: the boundary-drop scenario point `(900,900)` against
the world boundary `[0,0,800,800]`. -/
theorem C7_witness :
    quad_node_insert 1 (quad_node_init b800) ptOut =
      some (quad_node_init b800) :=
  C7_outside_insert_no_op (quad_node_init b800) ptOut 0 contains_b800_ptOut

/-! ### Termination and divergence of insertion (claim C4) -/

/-- Stored points lie inside the boundary of a well-formed tree. -/
lemma stored_contains :
    ∀ (t : quad_node_t), quad_node_wf t = true →
      ∀ q ∈ storedPoints t, t.boundary.contains q.position = true := by
  intro t
  induction t with
  | leaf tm cm b pt =>
    intro hwf q hq
    cases pt with
    | none => simp [storedPoints] at hq
    | some q0 =>
      simp only [storedPoints, List.mem_singleton] at hq
      subst hq
      exact ((wf_leaf_some tm cm b q).mp hwf).2.2
  | node tm cm b x0 x1 x2 x3 ih0 ih1 ih2 ih3 =>
    intro hwf q hq
    rw [wf_node] at hwf
    obtain ⟨hw, hh, hb0, hb1, hb2, hb3, h0, h1, h2, h3⟩ := hwf
    simp only [storedPoints, List.mem_append] at hq
    rcases hq with ((hq | hq) | hq) | hq
    · have := ih0 h0 q hq
      rw [hb0] at this
      exact contains_of_quadrant b q.position hw hh 0 this
    · have := ih1 h1 q hq
      rw [hb1] at this
      exact contains_of_quadrant b q.position hw hh 1 this
    · have := ih2 h2 q hq
      rw [hb2] at this
      exact contains_of_quadrant b q.position hw hh 2 this
    · have := ih3 h3 q hq
      rw [hb3] at this
      exact contains_of_quadrant b q.position hw hh 3 this

/-- Rational archimedean bound with powers of two. -/
lemma exists_pow_two_bound (w d : ℚ) (hd : 0 < d) :
    ∃ k : ℕ, w ≤ 2 ^ k * d := by
  obtain ⟨n, hn⟩ := exists_nat_gt (w / d)
  refine ⟨n, ?_⟩
  have h2 : (n : ℚ) ≤ (2 : ℚ) ^ n := by
    exact_mod_cast (Nat.lt_two_pow n).le
  have h1 : w / d < (2 : ℚ) ^ n := lt_of_lt_of_le hn h2
  have : w = w / d * d := by field_simp
  rw [this]
  exact mul_le_mul_of_nonneg_right h1.le hd.le

/-- One child-level step of the insertion of `p` into the subdivision of a
cell that stored `q`: for every quadrant there are results for re-inserting
`q` and then inserting `p`, provided the same-cell case is solvable. -/
lemma child_step (b : FloatRect) (q p : point_t) (F : ℕ)
    (hw : 0 < b.width) (hh : 0 < b.height)
    (hq : b.contains q.position = true) (hp : b.contains p.position = true)
    (i : Fin 4)
    (hsame : qIdx b p.position = qIdx b q.position →
      ∃ t, quad_node_insert (F + 1)
        (.leaf 0 (0, 0) (quadrant b (qIdx b q.position)) (some q)) p =
          some t) :
    ∃ d e, quad_node_insert (F + 1) (quad_node_init (quadrant b i)) q =
          some d ∧
        quad_node_insert (F + 1) d p = some e := by
  have hd := insert_init F (quadrant b i) q
  by_cases hiq : i = qIdx b q.position
  · rw [if_pos ((contains_quadrant_iff b q.position hw hh hq i).mpr hiq)] at hd
    by_cases hip : i = qIdx b p.position
    · have heq : qIdx b p.position = qIdx b q.position := by
        rw [← hip, hiq]
      obtain ⟨t, ht⟩ := hsame heq
      rw [← hiq] at ht
      exact ⟨_, t, hd, ht⟩
    · have hnc : ¬ ((quadrant b i).contains p.position = true) := by
        rw [contains_quadrant_iff b p.position hw hh hp i]
        exact hip
      have he := insert_out F (.leaf 0 (0, 0) (quadrant b i) (some q)) p
        (by simpa using hnc)
      exact ⟨_, _, hd, he⟩
  · rw [if_neg (fun hcon =>
      hiq ((contains_quadrant_iff b q.position hw hh hq i).mp hcon))] at hd
    exact ⟨_, _, hd, insert_init F (quadrant b i) p⟩

/-- Insertion into an occupied leaf terminates once subdivision can
separate the two (distinct) positions: `k` bounds the number of halvings
needed. -/
lemma insert_leaf_occ_terminates :
    ∀ (k : ℕ) (b : FloatRect) (tm : ℚ) (cm : Vec2) (q p : point_t),
      0 < b.width → 0 < b.height →
      b.contains q.position = true → b.contains p.position = true →
      (b.width ≤ 2 ^ k * |q.position.1 - p.position.1| ∨
        b.height ≤ 2 ^ k * |q.position.2 - p.position.2|) →
      ∃ (F : ℕ) (t : quad_node_t),
        quad_node_insert F (.leaf tm cm b (some q)) p = some t := by
  intro k
  induction k with
  | zero =>
    intro b tm cm q p hw hh hq hp hbound
    exfalso
    rw [contains_iff _ _ hw hh] at hq hp
    rcases hbound with hx | hy
    · rw [pow_zero, one_mul] at hx
      have : |q.position.1 - p.position.1| < b.width := by
        rw [abs_sub_lt_iff]
        constructor <;> linarith [hq.1, hq.2.1, hp.1, hp.2.1]
      linarith
    · rw [pow_zero, one_mul] at hy
      have : |q.position.2 - p.position.2| < b.height := by
        rw [abs_sub_lt_iff]
        constructor <;> linarith [hq.2.2.1, hq.2.2.2, hp.2.2.1, hp.2.2.2]
      linarith
  | succ k ih =>
    intro b tm cm q p hw hh hq hp hbound
    have hqw : 0 < (quadrant b (qIdx b q.position)).width := by
      rw [quadrant_width]; linarith
    have hqh : 0 < (quadrant b (qIdx b q.position)).height := by
      rw [quadrant_height]; linarith
    -- a uniform fuel for the same-cell recursion, when it is needed
    have hstep : ∃ F : ℕ, qIdx b p.position = qIdx b q.position →
        ∃ t, quad_node_insert (F + 1)
          (.leaf 0 (0, 0) (quadrant b (qIdx b q.position)) (some q)) p =
            some t := by
      by_cases hip : qIdx b p.position = qIdx b q.position
      · have hqq : (quadrant b (qIdx b q.position)).contains q.position =
            true := contains_qIdx b q.position hw hh hq
        have hpp : (quadrant b (qIdx b q.position)).contains p.position =
            true := by
          rw [← hip]
          exact contains_qIdx b p.position hw hh hp
        have hbound2 :
            (quadrant b (qIdx b q.position)).width ≤
                2 ^ k * |q.position.1 - p.position.1| ∨
              (quadrant b (qIdx b q.position)).height ≤
                2 ^ k * |q.position.2 - p.position.2| := by
          rcases hbound with hx | hy
          · left
            rw [quadrant_width]
            rw [pow_succ] at hx
            linarith
          · right
            rw [quadrant_height]
            rw [pow_succ] at hy
            linarith
        obtain ⟨F0, t0, ht0⟩ := ih (quadrant b (qIdx b q.position)) 0 (0, 0)
          q p hqw hqh hqq hpp hbound2
        cases F0 with
        | zero => rw [insert_zero] at ht0; cases ht0
        | succ F1 => exact ⟨F1, fun _ => ⟨t0, ht0⟩⟩
      · exact ⟨0, fun h => absurd h hip⟩
    obtain ⟨F, hsame⟩ := hstep
    obtain ⟨d0, e0, hd0, he0⟩ := child_step b q p F hw hh hq hp 0 hsame
    obtain ⟨d1, e1, hd1, he1⟩ := child_step b q p F hw hh hq hp 1 hsame
    obtain ⟨d2, e2, hd2, he2⟩ := child_step b q p F hw hh hq hp 2 hsame
    obtain ⟨d3, e3, hd3, he3⟩ := child_step b q p F hw hh hq hp 3 hsame
    exact ⟨F + 1 + 1, .node tm cm b e0 e1 e2 e3,
      (insert_leaf_occ_eq_some (F + 1) tm cm b q p _ hp).mpr
        ⟨d0, d1, d2, d3, e0, e1, e2, e3, hd0, hd1, hd2, hd3,
          he0, he1, he2, he3, rfl⟩⟩

/-- Termination of insertion for a point whose position differs from every
stored point of a well-formed tree: some fuel suffices. -/
lemma insert_terminates :
    ∀ (t : quad_node_t) (p : point_t), quad_node_wf t = true →
      (∀ q ∈ storedPoints t, q.position ≠ p.position) →
      ∃ (fuel : ℕ) (r : quad_node_t), quad_node_insert fuel t p = some r := by
  intro t
  induction t with
  | leaf tm cm b pt =>
    intro p hwf hdist
    by_cases hc : b.contains p.position = true
    · cases pt with
      | none => exact ⟨0 + 1, _, insert_leaf_empty 0 tm cm b p hc⟩
      | some q =>
        obtain ⟨hw, hh, hq⟩ := (wf_leaf_some tm cm b q).mp hwf
        have hne : q.position ≠ p.position :=
          hdist q (by simp [storedPoints])
        by_cases hx : q.position.1 = p.position.1
        · have hy : q.position.2 ≠ p.position.2 := by
            intro hy
            exact hne (Prod.ext hx hy)
          have hd : 0 < |q.position.2 - p.position.2| :=
            abs_pos.mpr (sub_ne_zero.mpr hy)
          obtain ⟨k, hk⟩ := exists_pow_two_bound b.height _ hd
          exact insert_leaf_occ_terminates k b tm cm q p hw hh hq hc
            (Or.inr hk)
        · have hd : 0 < |q.position.1 - p.position.1| :=
            abs_pos.mpr (sub_ne_zero.mpr hx)
          obtain ⟨k, hk⟩ := exists_pow_two_bound b.width _ hd
          exact insert_leaf_occ_terminates k b tm cm q p hw hh hq hc
            (Or.inl hk)
    · refine ⟨0 + 1, _, insert_out 0 _ p ?_⟩
      simpa using hc
  | node tm cm b x0 x1 x2 x3 ih0 ih1 ih2 ih3 =>
    intro p hwf hdist
    by_cases hc : b.contains p.position = true
    · rw [wf_node] at hwf
      obtain ⟨hw, hh, hb0, hb1, hb2, hb3, h0, h1, h2, h3⟩ := hwf
      obtain ⟨F0, r0, hr0⟩ := ih0 p h0 fun q hq =>
        hdist q (by simp [storedPoints, hq])
      obtain ⟨F1, r1, hr1⟩ := ih1 p h1 fun q hq =>
        hdist q (by simp [storedPoints, hq])
      obtain ⟨F2, r2, hr2⟩ := ih2 p h2 fun q hq =>
        hdist q (by simp [storedPoints, hq])
      obtain ⟨F3, r3, hr3⟩ := ih3 p h3 fun q hq =>
        hdist q (by simp [storedPoints, hq])
      set F := max (max F0 F1) (max F2 F3) with hF
      have hm0 : quad_node_insert F x0 p = some r0 :=
        insert_mono_le F0 F x0 p r0 (by omega) hr0
      have hm1 : quad_node_insert F x1 p = some r1 :=
        insert_mono_le F1 F x1 p r1 (by omega) hr1
      have hm2 : quad_node_insert F x2 p = some r2 :=
        insert_mono_le F2 F x2 p r2 (by omega) hr2
      have hm3 : quad_node_insert F x3 p = some r3 :=
        insert_mono_le F3 F x3 p r3 (by omega) hr3
      exact ⟨F + 1, .node tm cm b r0 r1 r2 r3,
        (insert_node_eq_some F tm cm b x0 x1 x2 x3 p _ hc).mpr
          ⟨r0, r1, r2, r3, hm0, hm1, hm2, hm3, rfl⟩⟩
    · refine ⟨0 + 1, _, insert_out 0 _ p ?_⟩
      simpa using hc

/-- Inserting a point at a position identical to a stored point recurses
without bound: the insertion fails for every amount of fuel. -/
lemma insert_coincident_diverges :
    ∀ (fuel : ℕ) (t : quad_node_t) (p : point_t), quad_node_wf t = true →
      (∃ q ∈ storedPoints t, q.position = p.position) →
      quad_node_insert fuel t p = none := by
  intro fuel
  induction fuel with
  | zero => intro t p _ _; exact insert_zero t p
  | succ f ih =>
    intro t p hwf hco
    obtain ⟨q, hqmem, hqpos⟩ := hco
    have hc : t.boundary.contains p.position = true := by
      rw [← hqpos]
      exact stored_contains t hwf q hqmem
    cases t with
    | leaf tm cm b pt =>
      cases pt with
      | none => simp [storedPoints] at hqmem
      | some q0 =>
        simp only [storedPoints, List.mem_singleton] at hqmem
        subst hqmem
        obtain ⟨hw, hh, hq0⟩ := (wf_leaf_some tm cm b q).mp hwf
        cases hres : quad_node_insert (f + 1) (.leaf tm cm b (some q)) p with
        | none => rfl
        | some r =>
          exfalso
          rw [insert_leaf_occ_eq_some f tm cm b q p r hc] at hres
          obtain ⟨d0, d1, d2, d3, e0, e1, e2, e3,
            h0, h1, h2, h3, h4, h5, h6, h7, ht⟩ := hres
          cases f with
          | zero => rw [insert_zero] at h0; cases h0
          | succ g =>
            have key : ∀ (i : Fin 4) (d e : quad_node_t),
                i = qIdx b q.position →
                quad_node_insert (g + 1)
                  (quad_node_init (quadrant b i)) q = some d →
                quad_node_insert (g + 1) d p = some e → False := by
              intro i d e hi hd he
              have hcon : (quadrant b i).contains q.position = true :=
                (contains_quadrant_iff b q.position hw hh hq0 i).mpr hi
              have hd' := insert_init g (quadrant b i) q
              rw [if_pos hcon] at hd'
              rw [hd'] at hd
              have hdval : d = .leaf 0 (0, 0) (quadrant b i) (some q) :=
                (Option.some.inj hd).symm
              subst hdval
              have hwfd : quad_node_wf
                  (.leaf 0 (0, 0) (quadrant b i) (some q)) = true := by
                rw [wf_leaf_some]
                refine ⟨?_, ?_, hcon⟩
                · rw [quadrant_width]; linarith
                · rw [quadrant_height]; linarith
              have hnone := ih (.leaf 0 (0, 0) (quadrant b i) (some q)) p
                hwfd ⟨q, by simp [storedPoints], hqpos⟩
              rw [hnone] at he
              cases he
            rcases fin4_cases (qIdx b q.position) with hi | hi | hi | hi
            · exact key 0 d0 e0 hi.symm h0 h4
            · exact key 1 d1 e1 hi.symm h1 h5
            · exact key 2 d2 e2 hi.symm h2 h6
            · exact key 3 d3 e3 hi.symm h3 h7
    | node tm cm b x0 x1 x2 x3 =>
      rw [wf_node] at hwf
      obtain ⟨hw, hh, hb0, hb1, hb2, hb3, hw0, hw1, hw2, hw3⟩ := hwf
      cases hres : quad_node_insert (f + 1)
          (.node tm cm b x0 x1 x2 x3) p with
      | none => rfl
      | some r =>
        exfalso
        rw [insert_node_eq_some f tm cm b x0 x1 x2 x3 p r hc] at hres
        obtain ⟨e0, e1, e2, e3, h0, h1, h2, h3, ht⟩ := hres
        simp only [storedPoints, List.mem_append] at hqmem
        rcases hqmem with ((hm | hm) | hm) | hm
        · rw [ih x0 p hw0 ⟨q, hm, hqpos⟩] at h0; cases h0
        · rw [ih x1 p hw1 ⟨q, hm, hqpos⟩] at h1; cases h1
        · rw [ih x2 p hw2 ⟨q, hm, hqpos⟩] at h2; cases h2
        · rw [ih x3 p hw3 ⟨q, hm, hqpos⟩] at h3; cases h3

/-- Claim C4: `quad_node_insert` terminates (some recursion depth
suffices) for every point whose in-boundary position differs from the
positions of all points already stored in the (well-formed) subtree; but
inserting a point at a position numerically identical to a stored point
recurses without bound — the insertion produces no result no matter how
much fuel it is given, since no quadrant subdivision can separate the two
points and the implementation imposes no recursion-depth limit. -/
theorem C4_insert_termination_and_divergence :
    (∀ (t : quad_node_t) (p : point_t), quad_node_wf t = true →
        (∀ q ∈ storedPoints t, q.position ≠ p.position) →
        ∃ (fuel : ℕ) (r : quad_node_t),
          quad_node_insert fuel t p = some r) ∧
    (∀ (t : quad_node_t) (p : point_t), quad_node_wf t = true →
        (∃ q ∈ storedPoints t, q.position = p.position) →
        ∀ fuel : ℕ, quad_node_insert fuel t p = none) :=
  ⟨insert_terminates, fun t p hwf hco fuel =>
    insert_coincident_diverges fuel t p hwf hco⟩

/-- Witness for C4: a concrete single-point tree; a distinct position
inserts successfully with some fuel, a coincident one fails at every fuel
(shown here at fuel 7). -/
theorem C4_witness :
    (∃ (fuel : ℕ) (r : quad_node_t),
        quad_node_insert fuel (.leaf 0 (0, 0) b800 (some ptIn)) ptB =
          some r) ∧
    quad_node_insert 7 (.leaf 0 (0, 0) b800 (some ptIn))
      ⟨2, (100, 100), (0, 0)⟩ = none := by
  constructor
  · apply C4_insert_termination_and_divergence.1
    · rw [wf_leaf_some]
      exact ⟨b800_w, b800_h, contains_b800_ptIn⟩
    · intro q hq
      simp only [storedPoints, List.mem_singleton] at hq
      subst hq
      norm_num [ptIn, ptB, Prod.ext_iff]
  · apply C4_insert_termination_and_divergence.2
    · rw [wf_leaf_some]
      exact ⟨b800_w, b800_h, contains_b800_ptIn⟩
    · exact ⟨ptIn, by simp [storedPoints], rfl⟩

/-- Witness for C1: the boundary-drop build keeps only `ptIn`'s mass. -/
theorem C1_witness :
    (quad_node_compute_mass (.leaf 0 (0, 0) b800 (some ptIn))).total_mass =
      (([ptIn, ptOut].filter fun p => b800.contains p.position).map
        point_t.mass).sum :=
  C1_mass_conservation b800 [ptIn, ptOut] 10 _ b800_w b800_h
    (by
      constructor
      · intro q hq
        simp only [List.mem_singleton] at hq
        subst hq
        norm_num [ptIn, ptOut, Prod.ext_iff]
      · simp)
    treeDrop_build

/-- Witness for C9 on the boundary-drop build. -/
theorem C9_witness :
    quad_node_compute_mass
        (quad_node_compute_mass (.leaf 0 (0, 0) b800 (some ptIn))) =
      quad_node_compute_mass (.leaf 0 (0, 0) b800 (some ptIn)) :=
  C9_idempotent_aggregation b800 [ptIn, ptOut] 10 _ treeDrop_build

/-! ### The two-point tree (claim C5) -/

lemma sum_ite_pair4 {α : Type} [AddCommMonoid α] (i j : Fin 4) (hij : i ≠ j)
    (a c : α) :
    ((if (0 : Fin 4) = i then a else if (0 : Fin 4) = j then c else 0) +
      (if (1 : Fin 4) = i then a else if (1 : Fin 4) = j then c else 0) +
      (if (2 : Fin 4) = i then a else if (2 : Fin 4) = j then c else 0) +
      (if (3 : Fin 4) = i then a else if (3 : Fin 4) = j then c else 0)) =
      a + c := by
  rcases fin4_cases i with hi | hi | hi | hi <;> subst hi <;>
    rcases fin4_cases j with hj | hj | hj | hj <;> subst hj <;>
      first
        | exact absurd rfl hij
        | (simp
           try abel)

lemma sum_ite_single4 {α : Type} [AddCommMonoid α] (i : Fin 4) (a : α) :
    ((if (0 : Fin 4) = i then a else 0) + (if (1 : Fin 4) = i then a else 0) +
      (if (2 : Fin 4) = i then a else 0) +
      (if (3 : Fin 4) = i then a else 0)) = a := by
  rcases fin4_cases i with hi | hi | hi | hi <;> subst hi <;> simp

lemma TwoTree_sep_of (pA pB : point_t) (tm : ℚ) (cm : Vec2) (b : FloatRect)
    (e0 e1 e2 e3 : quad_node_t) (i j : Fin 4) (hij : i ≠ j)
    (hyp : ∀ k : Fin 4, child4 e0 e1 e2 e3 k =
      if k = i then .leaf 0 (0, 0) (quadrant b k) (some pA)
      else if k = j then .leaf 0 (0, 0) (quadrant b k) (some pB)
      else quad_node_init (quadrant b k)) :
    TwoTree pA pB (.node tm cm b e0 e1 e2 e3) :=
  TwoTree.sep tm cm b e0 e1 e2 e3 i j hij
    ⟨quadrant b i, by rw [hyp i, if_pos rfl]⟩
    ⟨quadrant b j, by
      rw [hyp j, if_neg (fun h => hij h.symm), if_pos rfl]⟩
    (fun k hki hkj =>
      ⟨quadrant b k, by rw [hyp k, if_neg hki, if_neg hkj]⟩)

lemma TwoTree_deep_of (pA pB : point_t) (tm : ℚ) (cm : Vec2)
    (b : FloatRect) (e0 e1 e2 e3 : quad_node_t) (i : Fin 4)
    (hsub : TwoTree pA pB (child4 e0 e1 e2 e3 i))
    (hyp : ∀ k : Fin 4, k ≠ i →
      child4 e0 e1 e2 e3 k = quad_node_init (quadrant b k)) :
    TwoTree pA pB (.node tm cm b e0 e1 e2 e3) :=
  TwoTree.deep tm cm b e0 e1 e2 e3 i hsub
    (fun k hk => ⟨quadrant b k, hyp k hk⟩)

/-- The midpoint of two distinct positions differs from both. -/
lemma ne_mid (A B : Vec2) (h : A ≠ B) :
    A ≠ ((A.1 + B.1) / 2, (A.2 + B.2) / 2) ∧
    B ≠ ((A.1 + B.1) / 2, (A.2 + B.2) / 2) := by
  constructor <;>
    · intro heq
      apply h
      rw [Prod.ext_iff] at heq ⊢
      obtain ⟨h1, h2⟩ := heq
      constructor <;> [linarith; linarith]

lemma velDelta_skip (theta : ℝ) (n : quad_node_t) (m : ℚ) (pos : Vec2)
    (h : n.total_mass = 0 ∨ pos = n.center_of_mass) :
    velDelta theta n m pos = 0 := by
  rw [velDelta, force_skip theta n _ h]
  rfl

lemma velDelta_leaf_agg (theta : ℝ) (tm : ℚ) (cm : Vec2) (b : FloatRect)
    (pt : Option point_t) (m : ℚ) (pos : Vec2)
    (h : ¬(tm = 0 ∨ pos = cm)) :
    velDelta theta (.leaf tm cm b pt) m pos = aggDelta tm cm m pos := by
  rw [velDelta, force_leaf, if_neg h]
  show ((0 : ℝ), (0 : ℝ)) + aggDelta tm cm m pos = aggDelta tm cm m pos
  simp

lemma velDelta_node_agg (theta : ℝ) (tm : ℚ) (cm : Vec2) (b : FloatRect)
    (c0 c1 c2 c3 : quad_node_t) (m : ℚ) (pos : Vec2)
    (h1 : ¬(tm = 0 ∨ pos = cm))
    (h2 : (b.width : ℝ) / nodeDistance cm pos < theta) :
    velDelta theta (.node tm cm b c0 c1 c2 c3) m pos =
      aggDelta tm cm m pos := by
  rw [velDelta, force_node, if_neg h1, if_pos h2]
  show ((0 : ℝ), (0 : ℝ)) + aggDelta tm cm m pos = aggDelta tm cm m pos
  simp

lemma velDelta_node_rec (theta : ℝ) (tm : ℚ) (cm : Vec2) (b : FloatRect)
    (c0 c1 c2 c3 : quad_node_t) (m : ℚ) (pos : Vec2)
    (h1 : ¬(tm = 0 ∨ pos = cm))
    (h2 : ¬((b.width : ℝ) / nodeDistance cm pos < theta)) :
    velDelta theta (.node tm cm b c0 c1 c2 c3) m pos =
      velDelta theta c0 m pos + velDelta theta c1 m pos +
        velDelta theta c2 m pos + velDelta theta c3 m pos := by
  rw [velDelta, force_node, if_neg h1, if_neg h2]
  rw [force_shift, force_shift, force_shift, force_shift]
  show ((0 : ℝ), (0 : ℝ)) + velDelta theta c0 m pos + velDelta theta c1 m pos
      + velDelta theta c2 m pos + velDelta theta c3 m pos = _
  simp [add_assoc]

/-- The acceleration from the midpoint aggregate is exactly opposite for
the two endpoints. -/
lemma aggDelta_antisym (tm m : ℚ) (A B : Vec2) :
    aggDelta tm ((A.1 + B.1) / 2, (A.2 + B.2) / 2) m A =
      - aggDelta tm ((A.1 + B.1) / 2, (A.2 + B.2) / 2) m B := by
  have hd : nodeDistance ((A.1 + B.1) / 2, (A.2 + B.2) / 2) A =
      nodeDistance ((A.1 + B.1) / 2, (A.2 + B.2) / 2) B := by
    unfold nodeDistance nodeDirection
    congr 1
    push_cast
    ring
  simp only [aggDelta, rmul, rdiv, nodeDirection, Prod.ext_iff,
    Prod.fst_neg, Prod.snd_neg]
  rw [hd]
  constructor <;> (push_cast; ring)

/-- The exact pairwise interaction is exactly opposite under exchange of
the two points. -/
lemma aggDelta_swap (tm m : ℚ) (A B : Vec2) :
    aggDelta tm B m A = - aggDelta tm A m B := by
  have hd : nodeDistance B A = nodeDistance A B := by
    unfold nodeDistance nodeDirection
    congr 1
    push_cast
    ring
  simp only [aggDelta, rmul, rdiv, nodeDirection, Prod.ext_iff,
    Prod.fst_neg, Prod.snd_neg]
  rw [hd]
  constructor <;> (push_cast; ring)

/-- `rnorm` is invariant under negation. -/
lemma rnorm_neg (v : RVec2) : rnorm (-v) = rnorm v := by
  unfold rnorm
  congr 1
  simp

/-- Inserting a second, distinct point into a leaf that stores a first
point yields a `TwoTree`. -/
lemma insert_second_shape :
    ∀ (fuel : ℕ) (b : FloatRect) (tm : ℚ) (cm : Vec2) (pA pB : point_t)
      (t : quad_node_t),
      0 < b.width → 0 < b.height →
      b.contains pA.position = true → b.contains pB.position = true →
      pA.position ≠ pB.position →
      quad_node_insert fuel (.leaf tm cm b (some pA)) pB = some t →
      TwoTree pA pB t := by
  intro fuel
  induction fuel with
  | zero =>
    intro b tm cm pA pB t _ _ _ _ _ h
    rw [insert_zero] at h
    cases h
  | succ f ih =>
    intro b tm cm pA pB t hw hh hA hB hne h
    rw [insert_leaf_occ_eq_some f tm cm b pA pB t hB] at h
    obtain ⟨d0, d1, d2, d3, e0, e1, e2, e3,
      h0, h1, h2, h3, h4, h5, h6, h7, ht⟩ := h
    cases f with
    | zero => rw [insert_zero] at h0; cases h0
    | succ g =>
      have hdc : ∀ (k : Fin 4) (d : quad_node_t),
          quad_node_insert (g + 1) (quad_node_init (quadrant b k)) pA =
            some d →
          d = if k = qIdx b pA.position then
              quad_node_t.leaf 0 (0, 0) (quadrant b k) (some pA)
            else quad_node_init (quadrant b k) := by
        intro k d hd
        have hi := insert_init g (quadrant b k) pA
        rw [if_congr (contains_quadrant_iff b pA.position hw hh hA k)
          rfl rfl] at hi
        exact Option.some.inj (hd.symm.trans hi)
      have hd0c := hdc 0 d0 h0
      have hd1c := hdc 1 d1 h1
      have hd2c := hdc 2 d2 h2
      have hd3c := hdc 3 d3 h3
      have hec : ∀ (k : Fin 4) (d e : quad_node_t),
          d = quad_node_init (quadrant b k) →
          quad_node_insert (g + 1) d pB = some e →
          e = if k = qIdx b pB.position then
              quad_node_t.leaf 0 (0, 0) (quadrant b k) (some pB)
            else quad_node_init (quadrant b k) := by
        intro k d e hd he
        subst hd
        have hi := insert_init g (quadrant b k) pB
        rw [if_congr (contains_quadrant_iff b pB.position hw hh hB k)
          rfl rfl] at hi
        exact Option.some.inj (he.symm.trans hi)
      have hecA : ∀ (k : Fin 4) (d e : quad_node_t),
          k = qIdx b pA.position →
          qIdx b pA.position ≠ qIdx b pB.position →
          d = quad_node_t.leaf 0 (0, 0) (quadrant b k) (some pA) →
          quad_node_insert (g + 1) d pB = some e →
          e = quad_node_t.leaf 0 (0, 0) (quadrant b k) (some pA) := by
        intro k d e hk hAB hd he
        subst hd
        have hnc : ¬ ((quadrant b k).contains pB.position = true) := by
          rw [contains_quadrant_iff b pB.position hw hh hB k, hk]
          exact hAB
        have hi := insert_out g
          (quad_node_t.leaf 0 (0, 0) (quadrant b k) (some pA)) pB
          (by simpa using hnc)
        exact Option.some.inj (he.symm.trans hi)
      rw [← ht]
      by_cases hAB : qIdx b pA.position = qIdx b pB.position
      · -- same quadrant: a deeper spine node
        have hqw : 0 < (quadrant b (qIdx b pA.position)).width := by
          rw [quadrant_width]; linarith
        have hqh : 0 < (quadrant b (qIdx b pA.position)).height := by
          rw [quadrant_height]; linarith
        have hcqA : (quadrant b (qIdx b pA.position)).contains pA.position =
            true := contains_qIdx b pA.position hw hh hA
        have hcqB : (quadrant b (qIdx b pA.position)).contains pB.position =
            true := by
          rw [hAB]
          exact contains_qIdx b pB.position hw hh hB
        have hsub : TwoTree pA pB (child4 e0 e1 e2 e3 (qIdx b pA.position)) := by
          rcases fin4_cases (qIdx b pA.position) with hi | hi | hi | hi <;>
            rw [hi] <;> rw [hi] at hqw hqh hcqA hcqB <;>
              simp only [child4]
          · rw [hd0c, if_pos hi.symm] at h4
            exact ih (quadrant b 0) 0 (0, 0) pA pB e0 hqw hqh hcqA hcqB hne h4
          · rw [hd1c, if_pos hi.symm] at h5
            exact ih (quadrant b 1) 0 (0, 0) pA pB e1 hqw hqh hcqA hcqB hne h5
          · rw [hd2c, if_pos hi.symm] at h6
            exact ih (quadrant b 2) 0 (0, 0) pA pB e2 hqw hqh hcqA hcqB hne h6
          · rw [hd3c, if_pos hi.symm] at h7
            exact ih (quadrant b 3) 0 (0, 0) pA pB e3 hqw hqh hcqA hcqB hne h7
        refine TwoTree_deep_of pA pB tm cm b e0 e1 e2 e3
          (qIdx b pA.position) hsub ?_
        intro k hk
        have hkB : k ≠ qIdx b pB.position := by
          rw [← hAB]
          exact hk
        rcases fin4_cases k with hk0 | hk0 | hk0 | hk0 <;> subst hk0 <;>
          simp only [child4]
        · rw [hec 0 d0 e0 (by rw [hd0c, if_neg hk]) h4, if_neg hkB]
        · rw [hec 1 d1 e1 (by rw [hd1c, if_neg hk]) h5, if_neg hkB]
        · rw [hec 2 d2 e2 (by rw [hd2c, if_neg hk]) h6, if_neg hkB]
        · rw [hec 3 d3 e3 (by rw [hd3c, if_neg hk]) h7, if_neg hkB]
      · -- distinct quadrants: the two leaves separate here
        refine TwoTree_sep_of pA pB tm cm b e0 e1 e2 e3
          (qIdx b pA.position) (qIdx b pB.position) hAB ?_
        intro k
        rcases fin4_cases k with hk0 | hk0 | hk0 | hk0 <;> subst hk0 <;>
          simp only [child4]
        · by_cases hkA : (0 : Fin 4) = qIdx b pA.position
          · rw [if_pos hkA]
            exact hecA 0 d0 e0 hkA hAB (by rw [hd0c, if_pos hkA]) h4
          · rw [if_neg hkA]
            exact hec 0 d0 e0 (by rw [hd0c, if_neg hkA]) h4
        · by_cases hkA : (1 : Fin 4) = qIdx b pA.position
          · rw [if_pos hkA]
            exact hecA 1 d1 e1 hkA hAB (by rw [hd1c, if_pos hkA]) h5
          · rw [if_neg hkA]
            exact hec 1 d1 e1 (by rw [hd1c, if_neg hkA]) h5
        · by_cases hkA : (2 : Fin 4) = qIdx b pA.position
          · rw [if_pos hkA]
            exact hecA 2 d2 e2 hkA hAB (by rw [hd2c, if_pos hkA]) h6
          · rw [if_neg hkA]
            exact hec 2 d2 e2 (by rw [hd2c, if_neg hkA]) h6
        · by_cases hkA : (3 : Fin 4) = qIdx b pA.position
          · rw [if_pos hkA]
            exact hecA 3 d3 e3 hkA hAB (by rw [hd3c, if_pos hkA]) h7
          · rw [if_neg hkA]
            exact hec 3 d3 e3 (by rw [hd3c, if_neg hkA]) h7

lemma nodeDistance_mid (A B : Vec2) :
    nodeDistance ((A.1 + B.1) / 2, (A.2 + B.2) / 2) A =
      nodeDistance ((A.1 + B.1) / 2, (A.2 + B.2) / 2) B := by
  unfold nodeDistance nodeDirection
  congr 1
  push_cast
  ring

lemma qmul_zero_right (v : Vec2) : qmul v 0 = 0 := by
  simp [qmul, Prod.ext_iff]

/-- Aggregation of a two-point tree: total mass `2m`, center of mass at
the midpoint, and exactly opposite velocity increments for the two
points. -/
lemma twoTree_agg (pA pB : point_t) (m : ℚ) (hmA : pA.mass = m)
    (hmB : pB.mass = m) (hm : 0 < m) (hne : pA.position ≠ pB.position) :
    ∀ (t : quad_node_t), TwoTree pA pB t →
      (quad_node_compute_mass t).total_mass = 2 * m ∧
      (quad_node_compute_mass t).center_of_mass =
        ((pA.position.1 + pB.position.1) / 2,
          (pA.position.2 + pB.position.2) / 2) ∧
      velDelta THETA (quad_node_compute_mass t) m pA.position =
        - velDelta THETA (quad_node_compute_mass t) m pB.position := by
  have hm2 : (0 : ℚ) < 2 * m := by linarith
  have hmid := ne_mid pA.position pB.position hne
  have hskipA : ¬(2 * m = 0 ∨ pA.position =
      (((pA.position.1 + pB.position.1) / 2,
        (pA.position.2 + pB.position.2) / 2) : Vec2)) :=
    not_or.mpr ⟨hm2.ne', hmid.1⟩
  have hskipB : ¬(2 * m = 0 ∨ pB.position =
      (((pA.position.1 + pB.position.1) / 2,
        (pA.position.2 + pB.position.2) / 2) : Vec2)) :=
    not_or.mpr ⟨hm2.ne', hmid.2⟩
  intro t hTT
  induction hTT with
  | sep tm cm b x0 x1 x2 x3 i j hij hA hB hE =>
    obtain ⟨rA, hrA⟩ := hA
    obtain ⟨rB, hrB⟩ := hB
    have hch : ∀ k : Fin 4,
        (quad_node_compute_mass (child4 x0 x1 x2 x3 k)).total_mass =
          (if k = i then m else if k = j then m else 0) ∧
        qmul (quad_node_compute_mass (child4 x0 x1 x2 x3 k)).center_of_mass
            (quad_node_compute_mass (child4 x0 x1 x2 x3 k)).total_mass =
          (if k = i then qmul pA.position m
           else if k = j then qmul pB.position m else 0) ∧
        velDelta THETA (quad_node_compute_mass (child4 x0 x1 x2 x3 k)) m
            pA.position =
          (if k = i then 0
           else if k = j then aggDelta m pB.position m pA.position else 0) ∧
        velDelta THETA (quad_node_compute_mass (child4 x0 x1 x2 x3 k)) m
            pB.position =
          (if k = i then aggDelta m pA.position m pB.position
           else if k = j then 0 else 0) := by
      intro k
      by_cases hki : k = i
      · rw [if_pos hki, if_pos hki, if_pos hki, if_pos hki, hki, hrA]
        simp only [quad_node_compute_mass, total_mass_leaf,
          center_of_mass_leaf]
        rw [hmA]
        refine ⟨rfl, rfl, ?_, ?_⟩
        · exact velDelta_skip THETA _ m pA.position (Or.inr rfl)
        · rw [velDelta_leaf_agg THETA m pA.position rA (some pA) m
            pB.position (not_or.mpr ⟨hm.ne', fun hp => hne hp.symm⟩)]
      · by_cases hkj : k = j
        · rw [if_neg hki, if_pos hkj, if_neg hki, if_pos hkj, if_neg hki,
            if_pos hkj, if_neg hki, if_pos hkj, hkj, hrB]
          simp only [quad_node_compute_mass, total_mass_leaf,
            center_of_mass_leaf]
          rw [hmB]
          refine ⟨rfl, rfl, ?_, ?_⟩
          · rw [velDelta_leaf_agg THETA m pB.position rB (some pB) m
              pA.position (not_or.mpr ⟨hm.ne', hne⟩)]
          · exact velDelta_skip THETA _ m pB.position (Or.inr rfl)
        · obtain ⟨r, hr⟩ := hE k hki hkj
          rw [if_neg hki, if_neg hkj, if_neg hki, if_neg hkj, if_neg hki,
            if_neg hkj, if_neg hki, if_neg hkj, hr]
          simp only [quad_node_init, quad_node_compute_mass,
            total_mass_leaf, center_of_mass_leaf]
          refine ⟨?_, ?_, ?_, ?_⟩
          · trivial
          · first
              | exact qmul_zero_right _
              | trivial
          · exact velDelta_skip THETA _ m pA.position (Or.inl rfl)
          · exact velDelta_skip THETA _ m pB.position (Or.inl rfl)
    have hc0 := hch 0
    have hc1 := hch 1
    have hc2 := hch 2
    have hc3 := hch 3
    simp only [child4] at hc0 hc1 hc2 hc3
    have hTM : (quad_node_compute_mass x0).total_mass +
        (quad_node_compute_mass x1).total_mass +
        (quad_node_compute_mass x2).total_mass +
        (quad_node_compute_mass x3).total_mass = 2 * m := by
      rw [hc0.1, hc1.1, hc2.1, hc3.1, sum_ite_pair4 i j hij m m]
      ring
    have hCM : qmul (quad_node_compute_mass x0).center_of_mass
          (quad_node_compute_mass x0).total_mass +
        qmul (quad_node_compute_mass x1).center_of_mass
          (quad_node_compute_mass x1).total_mass +
        qmul (quad_node_compute_mass x2).center_of_mass
          (quad_node_compute_mass x2).total_mass +
        qmul (quad_node_compute_mass x3).center_of_mass
          (quad_node_compute_mass x3).total_mass =
        qmul pA.position m + qmul pB.position m := by
      rw [hc0.2.1, hc1.2.1, hc2.2.1, hc3.2.1,
        sum_ite_pair4 i j hij (qmul pA.position m) (qmul pB.position m)]
    have hagg : quad_node_compute_mass (.node tm cm b x0 x1 x2 x3) =
        .node (2 * m)
          ((pA.position.1 + pB.position.1) / 2,
            (pA.position.2 + pB.position.2) / 2) b
          (quad_node_compute_mass x0) (quad_node_compute_mass x1)
          (quad_node_compute_mass x2) (quad_node_compute_mass x3) := by
      simp only [quad_node_compute_mass]
      rw [hTM, hCM, if_pos hm2]
      have : qdiv (qmul pA.position m + qmul pB.position m) (2 * m) =
          ((pA.position.1 + pB.position.1) / 2,
            (pA.position.2 + pB.position.2) / 2) := by
        simp only [qdiv, qmul, Prod.ext_iff, Prod.fst_add, Prod.snd_add]
        constructor <;> (field_simp; ring)
      rw [this]
    rw [hagg]
    refine ⟨rfl, rfl, ?_⟩
    by_cases hr : (b.width : ℝ) / nodeDistance
        ((pA.position.1 + pB.position.1) / 2,
          (pA.position.2 + pB.position.2) / 2) pA.position < THETA
    · have hrB : (b.width : ℝ) / nodeDistance
          ((pA.position.1 + pB.position.1) / 2,
            (pA.position.2 + pB.position.2) / 2) pB.position < THETA := by
        rw [← nodeDistance_mid pA.position pB.position]
        exact hr
      rw [velDelta_node_agg THETA (2 * m) _ b _ _ _ _ m pA.position
          hskipA hr,
        velDelta_node_agg THETA (2 * m) _ b _ _ _ _ m pB.position
          hskipB hrB]
      exact aggDelta_antisym (2 * m) m pA.position pB.position
    · have hrB : ¬((b.width : ℝ) / nodeDistance
          ((pA.position.1 + pB.position.1) / 2,
            (pA.position.2 + pB.position.2) / 2) pB.position < THETA) := by
        rw [← nodeDistance_mid pA.position pB.position]
        exact hr
      rw [velDelta_node_rec THETA (2 * m) _ b _ _ _ _ m pA.position
          hskipA hr,
        velDelta_node_rec THETA (2 * m) _ b _ _ _ _ m pB.position
          hskipB hrB]
      rw [hc0.2.2.1, hc1.2.2.1, hc2.2.2.1, hc3.2.2.1,
        hc0.2.2.2, hc1.2.2.2, hc2.2.2.2, hc3.2.2.2,
        sum_ite_pair4 i j hij 0 (aggDelta m pB.position m pA.position),
        sum_ite_pair4 i j hij (aggDelta m pA.position m pB.position) 0,
        zero_add, add_zero]
      exact aggDelta_swap m m pA.position pB.position
  | deep tm cm b x0 x1 x2 x3 i hD hE ih =>
    set D : quad_node_t := quad_node_compute_mass (child4 x0 x1 x2 x3 i)
      with hDdef
    have hch : ∀ k : Fin 4, k ≠ i →
        (quad_node_compute_mass (child4 x0 x1 x2 x3 k)).total_mass = 0 ∧
        qmul (quad_node_compute_mass (child4 x0 x1 x2 x3 k)).center_of_mass
          (quad_node_compute_mass (child4 x0 x1 x2 x3 k)).total_mass = 0 ∧
        velDelta THETA (quad_node_compute_mass (child4 x0 x1 x2 x3 k)) m
          pA.position = 0 ∧
        velDelta THETA (quad_node_compute_mass (child4 x0 x1 x2 x3 k)) m
          pB.position = 0 := by
      intro k hk
      obtain ⟨r, hr⟩ := hE k hk
      rw [hr]
      simp only [quad_node_init, quad_node_compute_mass, total_mass_leaf,
        center_of_mass_leaf]
      refine ⟨?_, ?_, ?_, ?_⟩
      · trivial
      · first
          | exact qmul_zero_right _
          | trivial
      · exact velDelta_skip THETA _ m pA.position (Or.inl rfl)
      · exact velDelta_skip THETA _ m pB.position (Or.inl rfl)
    have hchv : ∀ k : Fin 4,
        (quad_node_compute_mass (child4 x0 x1 x2 x3 k)).total_mass =
          (if k = i then 2 * m else 0) ∧
        qmul (quad_node_compute_mass (child4 x0 x1 x2 x3 k)).center_of_mass
            (quad_node_compute_mass (child4 x0 x1 x2 x3 k)).total_mass =
          (if k = i then
            qmul ((pA.position.1 + pB.position.1) / 2,
              (pA.position.2 + pB.position.2) / 2) (2 * m) else 0) ∧
        velDelta THETA (quad_node_compute_mass (child4 x0 x1 x2 x3 k)) m
            pA.position =
          (if k = i then velDelta THETA D m pA.position else 0) ∧
        velDelta THETA (quad_node_compute_mass (child4 x0 x1 x2 x3 k)) m
            pB.position =
          (if k = i then velDelta THETA D m pB.position else 0) := by
      intro k
      by_cases hk : k = i
      · rw [if_pos hk, if_pos hk, if_pos hk, if_pos hk, hk, ← hDdef]
        exact ⟨ih.1, by rw [ih.1, ih.2.1], rfl, rfl⟩
      · rw [if_neg hk, if_neg hk, if_neg hk, if_neg hk]
        exact hch k hk
    have hc0 := hchv 0
    have hc1 := hchv 1
    have hc2 := hchv 2
    have hc3 := hchv 3
    simp only [child4] at hc0 hc1 hc2 hc3
    have hTM : (quad_node_compute_mass x0).total_mass +
        (quad_node_compute_mass x1).total_mass +
        (quad_node_compute_mass x2).total_mass +
        (quad_node_compute_mass x3).total_mass = 2 * m := by
      rw [hc0.1, hc1.1, hc2.1, hc3.1, sum_ite_single4 i (2 * m)]
    have hCM : qmul (quad_node_compute_mass x0).center_of_mass
          (quad_node_compute_mass x0).total_mass +
        qmul (quad_node_compute_mass x1).center_of_mass
          (quad_node_compute_mass x1).total_mass +
        qmul (quad_node_compute_mass x2).center_of_mass
          (quad_node_compute_mass x2).total_mass +
        qmul (quad_node_compute_mass x3).center_of_mass
          (quad_node_compute_mass x3).total_mass =
        qmul ((pA.position.1 + pB.position.1) / 2,
          (pA.position.2 + pB.position.2) / 2) (2 * m) := by
      rw [hc0.2.1, hc1.2.1, hc2.2.1, hc3.2.1,
        sum_ite_single4 i (qmul ((pA.position.1 + pB.position.1) / 2,
          (pA.position.2 + pB.position.2) / 2) (2 * m))]
    have hagg : quad_node_compute_mass (.node tm cm b x0 x1 x2 x3) =
        .node (2 * m)
          ((pA.position.1 + pB.position.1) / 2,
            (pA.position.2 + pB.position.2) / 2) b
          (quad_node_compute_mass x0) (quad_node_compute_mass x1)
          (quad_node_compute_mass x2) (quad_node_compute_mass x3) := by
      simp only [quad_node_compute_mass]
      rw [hTM, hCM, if_pos hm2]
      have : qdiv (qmul ((pA.position.1 + pB.position.1) / 2,
            (pA.position.2 + pB.position.2) / 2) (2 * m)) (2 * m) =
          ((pA.position.1 + pB.position.1) / 2,
            (pA.position.2 + pB.position.2) / 2) := by
        simp only [qdiv, qmul, Prod.ext_iff]
        exact ⟨mul_div_cancel_right₀ _ hm2.ne', mul_div_cancel_right₀ _ hm2.ne'⟩
      rw [this]
    rw [hagg]
    refine ⟨rfl, rfl, ?_⟩
    by_cases hr : (b.width : ℝ) / nodeDistance
        ((pA.position.1 + pB.position.1) / 2,
          (pA.position.2 + pB.position.2) / 2) pA.position < THETA
    · have hrB : (b.width : ℝ) / nodeDistance
          ((pA.position.1 + pB.position.1) / 2,
            (pA.position.2 + pB.position.2) / 2) pB.position < THETA := by
        rw [← nodeDistance_mid pA.position pB.position]
        exact hr
      rw [velDelta_node_agg THETA (2 * m) _ b _ _ _ _ m pA.position
          hskipA hr,
        velDelta_node_agg THETA (2 * m) _ b _ _ _ _ m pB.position
          hskipB hrB]
      exact aggDelta_antisym (2 * m) m pA.position pB.position
    · have hrB : ¬((b.width : ℝ) / nodeDistance
          ((pA.position.1 + pB.position.1) / 2,
            (pA.position.2 + pB.position.2) / 2) pB.position < THETA) := by
        rw [← nodeDistance_mid pA.position pB.position]
        exact hr
      rw [velDelta_node_rec THETA (2 * m) _ b _ _ _ _ m pA.position
          hskipA hr,
        velDelta_node_rec THETA (2 * m) _ b _ _ _ _ m pB.position
          hskipB hrB]
      rw [hc0.2.2.1, hc1.2.2.1, hc2.2.2.1, hc3.2.2.1,
        hc0.2.2.2, hc1.2.2.2, hc2.2.2.2, hc3.2.2.2,
        sum_ite_single4 i (velDelta THETA D m pA.position),
        sum_ite_single4 i (velDelta THETA D m pB.position)]
      exact ih.2.2

/-- Claim C5: for every tree built and aggregated from exactly two points
of equal mass `m` at distinct positions `A` and `B`, both inside the
boundary, the magnitude of the acceleration (velocity change) that force
evaluation applies to the point at `A` equals the magnitude applied to the
point at `B`. -/
theorem C5_equal_mass_symmetry (b : FloatRect) (m : ℚ) (A B vA vB : Vec2)
    (fuel : ℕ) (t : quad_node_t)
    (hw : 0 < b.width) (hh : 0 < b.height) (hm : 0 < m) (hAB : A ≠ B)
    (hA : b.contains A = true) (hB : b.contains B = true)
    (hbuild : buildTree b fuel [⟨m, A, vA⟩, ⟨m, B, vB⟩] = some t) :
    rnorm ((quad_node_compute_force (quad_node_compute_mass t)
        ⟨m, A, (0, 0)⟩).velocity) =
      rnorm ((quad_node_compute_force (quad_node_compute_mass t)
        ⟨m, B, (0, 0)⟩).velocity) := by
  simp only [buildTree, List.foldlM_cons, List.foldlM_nil, bind] at hbuild
  cases h1 : quad_node_insert fuel (quad_node_init b) ⟨m, A, vA⟩ with
  | none => rw [h1] at hbuild; cases hbuild
  | some t1 =>
    rw [h1] at hbuild
    simp only [Option.some_bind] at hbuild
    cases h2 : quad_node_insert fuel t1 ⟨m, B, vB⟩ with
    | none => rw [h2] at hbuild; cases hbuild
    | some t2 =>
      rw [h2] at hbuild
      simp only [Option.some_bind, Option.pure_def, Option.some.injEq]
        at hbuild
      subst hbuild
      cases fuel with
      | zero => rw [insert_zero] at h1; cases h1
      | succ f =>
        have hinit := insert_init f b (⟨m, A, vA⟩ : point_t)
        rw [if_pos hA] at hinit
        rw [hinit] at h1
        have ht1 : t1 = .leaf 0 (0, 0) b (some ⟨m, A, vA⟩) :=
          (Option.some.inj h1).symm
        subst ht1
        have hshape := insert_second_shape (f + 1) b 0 (0, 0)
          ⟨m, A, vA⟩ ⟨m, B, vB⟩ t2 hw hh hA hB hAB h2
        have hagg := twoTree_agg ⟨m, A, vA⟩ ⟨m, B, vB⟩ m rfl rfl hm hAB
          t2 hshape
        have hrel : velDelta THETA (quad_node_compute_mass t2) m A =
            - velDelta THETA (quad_node_compute_mass t2) m B := hagg.2.2
        rw [force_eq, force_shift, force_shift]
        show rnorm ((0, 0) + velDelta THETA (quad_node_compute_mass t2) m A)
          = rnorm ((0, 0) + velDelta THETA (quad_node_compute_mass t2) m B)
        simp only [Prod.mk_zero_zero, zero_add]
        rw [hrel, rnorm_neg]

/-! ### Concrete evaluation of the two-point scenario build -/

lemma contains_mk_true (l t w h x y : ℚ) (hw : 0 < w) (hh : 0 < h)
    (h1 : l ≤ x) (h2 : x < l + w) (h3 : t ≤ y) (h4 : y < t + h) :
    (FloatRect.mk l t w h).contains (x, y) = true :=
  (contains_explicit l t w h (x, y) hw hh).mpr ⟨h1, h2, h3, h4⟩

lemma contains_mk_false (l t w h x y : ℚ) (hw : 0 < w) (hh : 0 < h)
    (hno : ¬(l ≤ x ∧ x < l + w ∧ t ≤ y ∧ y < t + h)) :
    (FloatRect.mk l t w h).contains (x, y) = false := by
  have h : ¬((FloatRect.mk l t w h).contains (x, y) = true) := by
    rw [contains_explicit l t w h (x, y) hw hh]
    exact hno
  simpa using h

lemma insert_store_pt (f : ℕ) (r : FloatRect) (p : point_t)
    (hc : r.contains p.position = true) :
    quad_node_insert (f + 1) (quad_node_init r) p =
      some (.leaf 0 (0, 0) r (some p)) := by
  have h := insert_init f r p
  rw [if_pos hc] at h
  exact h

lemma insert_skip_init (f : ℕ) (r : FloatRect) (p : point_t)
    (hc : r.contains p.position = false) :
    quad_node_insert (f + 1) (quad_node_init r) p =
      some (quad_node_init r) :=
  insert_out f (quad_node_init r) p hc

lemma contains_b800_ptA : b800.contains ptA.position = true :=
  contains_mk_true 0 0 800 800 0 0 (by norm_num) (by norm_num)
    (by norm_num) (by norm_num) (by norm_num) (by norm_num)

lemma contains_b800_ptB : b800.contains ptB.position = true :=
  contains_mk_true 0 0 800 800 100 0 (by norm_num) (by norm_num)
    (by norm_num) (by norm_num) (by norm_num) (by norm_num)

/-- Separation level: inserting `ptB` into the width-200 cell that stores
`ptA` subdivides once and stores the two points in quadrants 0 and 1. -/
lemma insert_sep_level :
    quad_node_insert 8 (.leaf 0 (0, 0) ⟨0, 0, 200, 200⟩ (some ptA)) ptB =
      some T2sep := by
  have hq0 : quadrant ⟨0, 0, 200, 200⟩ 0 = ⟨0, 0, 100, 100⟩ := by
    norm_num [quadrant]
  have hq1 : quadrant ⟨0, 0, 200, 200⟩ 1 = ⟨100, 0, 100, 100⟩ := by
    norm_num [quadrant]
  have hq2 : quadrant ⟨0, 0, 200, 200⟩ 2 = ⟨0, 100, 100, 100⟩ := by
    norm_num [quadrant]
  have hq3 : quadrant ⟨0, 0, 200, 200⟩ 3 = ⟨100, 100, 100, 100⟩ := by
    norm_num [quadrant]
  have hc : (FloatRect.mk 0 0 200 200).contains ptB.position = true :=
    contains_mk_true 0 0 200 200 100 0 (by norm_num) (by norm_num)
      (by norm_num) (by norm_num) (by norm_num) (by norm_num)
  apply (insert_leaf_occ_eq_some 7 0 (0, 0) ⟨0, 0, 200, 200⟩ ptA ptB
    T2sep hc).mpr
  refine ⟨.leaf 0 (0, 0) ⟨0, 0, 100, 100⟩ (some ptA),
    quad_node_init ⟨100, 0, 100, 100⟩,
    quad_node_init ⟨0, 100, 100, 100⟩,
    quad_node_init ⟨100, 100, 100, 100⟩,
    .leaf 0 (0, 0) ⟨0, 0, 100, 100⟩ (some ptA),
    .leaf 0 (0, 0) ⟨100, 0, 100, 100⟩ (some ptB),
    quad_node_init ⟨0, 100, 100, 100⟩,
    quad_node_init ⟨100, 100, 100, 100⟩,
    ?_, ?_, ?_, ?_, ?_, ?_, ?_, ?_, rfl⟩
  · rw [hq0]
    exact insert_store_pt 6 _ ptA (contains_mk_true 0 0 100 100 0 0
      (by norm_num) (by norm_num) (by norm_num) (by norm_num)
      (by norm_num) (by norm_num))
  · rw [hq1]
    exact insert_skip_init 6 _ ptA (contains_mk_false 100 0 100 100 0 0
      (by norm_num) (by norm_num) (by norm_num))
  · rw [hq2]
    exact insert_skip_init 6 _ ptA (contains_mk_false 0 100 100 100 0 0
      (by norm_num) (by norm_num) (by norm_num))
  · rw [hq3]
    exact insert_skip_init 6 _ ptA (contains_mk_false 100 100 100 100 0 0
      (by norm_num) (by norm_num) (by norm_num))
  · exact insert_out 6 _ ptB (contains_mk_false 0 0 100 100 100 0
      (by norm_num) (by norm_num) (by norm_num))
  · exact insert_store_pt 6 _ ptB (contains_mk_true 100 0 100 100 100 0
      (by norm_num) (by norm_num) (by norm_num) (by norm_num)
      (by norm_num) (by norm_num))
  · exact insert_skip_init 6 _ ptB (contains_mk_false 0 100 100 100 100 0
      (by norm_num) (by norm_num) (by norm_num))
  · exact insert_skip_init 6 _ ptB (contains_mk_false 100 100 100 100 100 0
      (by norm_num) (by norm_num) (by norm_num))

/-- Middle level: inserting `ptB` into the width-400 cell storing `ptA`. -/
lemma insert_mid_level :
    quad_node_insert 9 (.leaf 0 (0, 0) ⟨0, 0, 400, 400⟩ (some ptA)) ptB =
      some T2mid := by
  have hq0 : quadrant ⟨0, 0, 400, 400⟩ 0 = ⟨0, 0, 200, 200⟩ := by
    norm_num [quadrant]
  have hq1 : quadrant ⟨0, 0, 400, 400⟩ 1 = ⟨200, 0, 200, 200⟩ := by
    norm_num [quadrant]
  have hq2 : quadrant ⟨0, 0, 400, 400⟩ 2 = ⟨0, 200, 200, 200⟩ := by
    norm_num [quadrant]
  have hq3 : quadrant ⟨0, 0, 400, 400⟩ 3 = ⟨200, 200, 200, 200⟩ := by
    norm_num [quadrant]
  have hc : (FloatRect.mk 0 0 400 400).contains ptB.position = true :=
    contains_mk_true 0 0 400 400 100 0 (by norm_num) (by norm_num)
      (by norm_num) (by norm_num) (by norm_num) (by norm_num)
  apply (insert_leaf_occ_eq_some 8 0 (0, 0) ⟨0, 0, 400, 400⟩ ptA ptB
    T2mid hc).mpr
  refine ⟨.leaf 0 (0, 0) ⟨0, 0, 200, 200⟩ (some ptA),
    quad_node_init ⟨200, 0, 200, 200⟩,
    quad_node_init ⟨0, 200, 200, 200⟩,
    quad_node_init ⟨200, 200, 200, 200⟩,
    T2sep,
    quad_node_init ⟨200, 0, 200, 200⟩,
    quad_node_init ⟨0, 200, 200, 200⟩,
    quad_node_init ⟨200, 200, 200, 200⟩,
    ?_, ?_, ?_, ?_, ?_, ?_, ?_, ?_, rfl⟩
  · rw [hq0]
    exact insert_store_pt 7 _ ptA (contains_mk_true 0 0 200 200 0 0
      (by norm_num) (by norm_num) (by norm_num) (by norm_num)
      (by norm_num) (by norm_num))
  · rw [hq1]
    exact insert_skip_init 7 _ ptA (contains_mk_false 200 0 200 200 0 0
      (by norm_num) (by norm_num) (by norm_num))
  · rw [hq2]
    exact insert_skip_init 7 _ ptA (contains_mk_false 0 200 200 200 0 0
      (by norm_num) (by norm_num) (by norm_num))
  · rw [hq3]
    exact insert_skip_init 7 _ ptA (contains_mk_false 200 200 200 200 0 0
      (by norm_num) (by norm_num) (by norm_num))
  · exact insert_sep_level
  · exact insert_skip_init 7 _ ptB (contains_mk_false 200 0 200 200 100 0
      (by norm_num) (by norm_num) (by norm_num))
  · exact insert_skip_init 7 _ ptB (contains_mk_false 0 200 200 200 100 0
      (by norm_num) (by norm_num) (by norm_num))
  · exact insert_skip_init 7 _ ptB (contains_mk_false 200 200 200 200 100 0
      (by norm_num) (by norm_num) (by norm_num))

/-- Root level: inserting `ptB` into the world-sized leaf storing `ptA`. -/
lemma insert_root_level :
    quad_node_insert 10 (.leaf 0 (0, 0) b800 (some ptA)) ptB =
      some T2root := by
  have hq0 : quadrant b800 0 = ⟨0, 0, 400, 400⟩ := by
    norm_num [quadrant, b800]
  have hq1 : quadrant b800 1 = ⟨400, 0, 400, 400⟩ := by
    norm_num [quadrant, b800]
  have hq2 : quadrant b800 2 = ⟨0, 400, 400, 400⟩ := by
    norm_num [quadrant, b800]
  have hq3 : quadrant b800 3 = ⟨400, 400, 400, 400⟩ := by
    norm_num [quadrant, b800]
  apply (insert_leaf_occ_eq_some 9 0 (0, 0) b800 ptA ptB
    T2root contains_b800_ptB).mpr
  refine ⟨.leaf 0 (0, 0) ⟨0, 0, 400, 400⟩ (some ptA),
    quad_node_init ⟨400, 0, 400, 400⟩,
    quad_node_init ⟨0, 400, 400, 400⟩,
    quad_node_init ⟨400, 400, 400, 400⟩,
    T2mid,
    quad_node_init ⟨400, 0, 400, 400⟩,
    quad_node_init ⟨0, 400, 400, 400⟩,
    quad_node_init ⟨400, 400, 400, 400⟩,
    ?_, ?_, ?_, ?_, ?_, ?_, ?_, ?_, rfl⟩
  · rw [hq0]
    exact insert_store_pt 8 _ ptA (contains_mk_true 0 0 400 400 0 0
      (by norm_num) (by norm_num) (by norm_num) (by norm_num)
      (by norm_num) (by norm_num))
  · rw [hq1]
    exact insert_skip_init 8 _ ptA (contains_mk_false 400 0 400 400 0 0
      (by norm_num) (by norm_num) (by norm_num))
  · rw [hq2]
    exact insert_skip_init 8 _ ptA (contains_mk_false 0 400 400 400 0 0
      (by norm_num) (by norm_num) (by norm_num))
  · rw [hq3]
    exact insert_skip_init 8 _ ptA (contains_mk_false 400 400 400 400 0 0
      (by norm_num) (by norm_num) (by norm_num))
  · exact insert_mid_level
  · exact insert_skip_init 8 _ ptB (contains_mk_false 400 0 400 400 100 0
      (by norm_num) (by norm_num) (by norm_num))
  · exact insert_skip_init 8 _ ptB (contains_mk_false 0 400 400 400 100 0
      (by norm_num) (by norm_num) (by norm_num))
  · exact insert_skip_init 8 _ ptB (contains_mk_false 400 400 400 400 100 0
      (by norm_num) (by norm_num) (by norm_num))

/-- The end-to-end two-point build. -/
lemma treeTwo_build : buildTree b800 10 [ptA, ptB] = some T2root := by
  have h1 : quad_node_insert 10 (quad_node_init b800) ptA =
      some (.leaf 0 (0, 0) b800 (some ptA)) :=
    insert_store_pt 9 b800 ptA contains_b800_ptA
  simp only [buildTree, List.foldlM_cons, List.foldlM_nil, bind]
  rw [h1]
  simp only [Option.some_bind]
  rw [insert_root_level]
  rfl

lemma compute_mass_init_eq (r : FloatRect) :
    quad_node_compute_mass (quad_node_init r) = quad_node_init r := rfl

lemma compute_mass_node_eq (tm : ℚ) (cm : Vec2) (b : FloatRect)
    (x0 x1 x2 x3 : quad_node_t) :
    quad_node_compute_mass (.node tm cm b x0 x1 x2 x3) =
      .node ((quad_node_compute_mass x0).total_mass +
             (quad_node_compute_mass x1).total_mass +
             (quad_node_compute_mass x2).total_mass +
             (quad_node_compute_mass x3).total_mass)
        (if 0 < (quad_node_compute_mass x0).total_mass +
                (quad_node_compute_mass x1).total_mass +
                (quad_node_compute_mass x2).total_mass +
                (quad_node_compute_mass x3).total_mass then
          qdiv (qmul (quad_node_compute_mass x0).center_of_mass
                  (quad_node_compute_mass x0).total_mass +
                qmul (quad_node_compute_mass x1).center_of_mass
                  (quad_node_compute_mass x1).total_mass +
                qmul (quad_node_compute_mass x2).center_of_mass
                  (quad_node_compute_mass x2).total_mass +
                qmul (quad_node_compute_mass x3).center_of_mass
                  (quad_node_compute_mass x3).total_mass)
            ((quad_node_compute_mass x0).total_mass +
             (quad_node_compute_mass x1).total_mass +
             (quad_node_compute_mass x2).total_mass +
             (quad_node_compute_mass x3).total_mass)
         else
          qmul (quad_node_compute_mass x0).center_of_mass
            (quad_node_compute_mass x0).total_mass +
          qmul (quad_node_compute_mass x1).center_of_mass
            (quad_node_compute_mass x1).total_mass +
          qmul (quad_node_compute_mass x2).center_of_mass
            (quad_node_compute_mass x2).total_mass +
          qmul (quad_node_compute_mass x3).center_of_mass
            (quad_node_compute_mass x3).total_mass)
        b (quad_node_compute_mass x0) (quad_node_compute_mass x1)
        (quad_node_compute_mass x2) (quad_node_compute_mass x3) := rfl

/-- Aggregating the two-point tree: total mass 2 and center of mass
`(50,0)` along the whole spine. -/
lemma treeTwo_aggregate : quad_node_compute_mass T2root = T2rootA := by
  have hsep : quad_node_compute_mass T2sep = T2sepA := by
    simp only [T2sep, T2sepA, quad_node_init, quad_node_compute_mass,
      total_mass_leaf, center_of_mass_leaf]
    norm_num [ptA, ptB, qmul, qdiv, Prod.ext_iff]
  have hmid : quad_node_compute_mass T2mid = T2midA := by
    rw [show T2mid = quad_node_t.node 0 (0, 0) ⟨0, 0, 400, 400⟩ T2sep
        (quad_node_init ⟨200, 0, 200, 200⟩)
        (quad_node_init ⟨0, 200, 200, 200⟩)
        (quad_node_init ⟨200, 200, 200, 200⟩) from rfl,
      compute_mass_node_eq, hsep, compute_mass_init_eq,
      compute_mass_init_eq, compute_mass_init_eq]
    simp only [T2midA, T2sepA, quad_node_init, total_mass_node,
      center_of_mass_node, total_mass_leaf, center_of_mass_leaf]
    norm_num [qmul, qdiv, Prod.ext_iff]
  rw [show T2root = quad_node_t.node 0 (0, 0) b800 T2mid
      (quad_node_init ⟨400, 0, 400, 400⟩)
      (quad_node_init ⟨0, 400, 400, 400⟩)
      (quad_node_init ⟨400, 400, 400, 400⟩) from rfl,
    compute_mass_node_eq, hmid, compute_mass_init_eq,
    compute_mass_init_eq, compute_mass_init_eq]
  simp only [T2rootA, T2midA, quad_node_init, total_mass_node,
    center_of_mass_node, total_mass_leaf, center_of_mass_leaf]
  norm_num [qmul, qdiv, Prod.ext_iff]

/-- Witness for C5: the end-to-end scenario itself (masses 1 at `(0,0)`
and `(100,0)` in the world boundary). -/
theorem C5_witness :
    rnorm ((quad_node_compute_force (quad_node_compute_mass T2root)
        ⟨1, (0, 0), (0, 0)⟩).velocity) =
      rnorm ((quad_node_compute_force (quad_node_compute_mass T2root)
        ⟨1, (100, 0), (0, 0)⟩).velocity) :=
  C5_equal_mass_symmetry b800 1 (0, 0) (100, 0) (0, 0) (0, 0) 10 T2root
    b800_w b800_h (by norm_num) (by norm_num [Prod.ext_iff])
    contains_b800_ptA contains_b800_ptB treeTwo_build

/-! ### Concrete force evaluation for the two-point scenario -/

lemma dist_spine_A : nodeDistance (50, 0) (0, 0) = Real.sqrt 2725 := by
  unfold nodeDistance nodeDirection SOFTENING
  push_cast
  norm_num

lemma dist_spine_B : nodeDistance (50, 0) (100, 0) = Real.sqrt 2725 := by
  unfold nodeDistance nodeDirection SOFTENING
  push_cast
  norm_num

lemma sqrt2725_lt_53 : Real.sqrt 2725 < 53 :=
  (Real.sqrt_lt' (by norm_num)).mpr (by norm_num)

/-- None of the spine widths 800, 400, 200 opens the aggregate branch at
distance `√2725 ≈ 52.2`: the ratio `width / distance` is at least `1/2`. -/
lemma spine_no_open (w : ℚ) (pos : Vec2)
    (hd : nodeDistance (50, 0) pos = Real.sqrt 2725)
    (hw : (53 : ℝ) ≤ 2 * (w : ℝ)) :
    ¬((w : ℝ) / nodeDistance (50, 0) pos < THETA) := by
  rw [hd, THETA]
  intro h
  have h0 : (0 : ℝ) < Real.sqrt 2725 := Real.sqrt_pos.mpr (by norm_num)
  rw [div_lt_iff h0] at h
  have h53 := sqrt2725_lt_53
  nlinarith

lemma distAB : nodeDistance (100, 0) (0, 0) = Real.sqrt 10225 := by
  unfold nodeDistance nodeDirection SOFTENING
  push_cast
  norm_num

lemma sqrt10225_sq : Real.sqrt 10225 * Real.sqrt 10225 = 10225 :=
  Real.mul_self_sqrt (by norm_num)

lemma sqrt10225_pos : (0 : ℝ) < Real.sqrt 10225 :=
  Real.sqrt_pos.mpr (by norm_num)

/-- The exact pairwise increment that the point at the origin receives
from the leaf storing the point at `(100, 0)`. -/
lemma aggDelta_BA :
    aggDelta 1 (100, 0) 1 (0, 0) = (1 / (1045 * Real.sqrt 10225), 0) := by
  simp only [aggDelta, rmul, rdiv, nodeDirection, GRAVITY_CONSTANT,
    TIME_STEP, SOFTENING, distAB]
  have hsq := sqrt10225_sq
  have hpos := sqrt10225_pos
  rw [Prod.ext_iff]
  constructor
  · push_cast
    rw [hsq]
    rw [div_one, mul_one]
    rw [div_mul_div_comm]
    rw [div_eq_div_iff (by positivity) (by positivity)]
    ring
  · push_cast
    norm_num

lemma aggDelta_AB :
    aggDelta 1 (0, 0) 1 (100, 0) = (-(1 / (1045 * Real.sqrt 10225)), 0) := by
  rw [aggDelta_swap 1 1 (100, 0) (0, 0), aggDelta_BA]
  rw [Prod.ext_iff]
  constructor
  · rfl
  · show -(0 : ℝ) = 0
    norm_num

/-- Traversal of the aggregated two-point tree for the point at the
origin: every spine node recurses, the empty leaves and the point's own
leaf contribute nothing, and the leaf of the other point aggregates. -/
lemma velDelta_T2rootA_A :
    velDelta THETA T2rootA 1 (0, 0) = aggDelta 1 (100, 0) 1 (0, 0) := by
  have hskip : ¬((2 : ℚ) = 0 ∨ ((0, 0) : Vec2) = ((50, 0) : Vec2)) := by
    norm_num [Prod.ext_iff]
  have h800 : ¬(((800 : ℚ) : ℝ) / nodeDistance (50, 0) (0, 0) < THETA) :=
    spine_no_open 800 (0, 0) dist_spine_A (by norm_num)
  have h400 : ¬(((400 : ℚ) : ℝ) / nodeDistance (50, 0) (0, 0) < THETA) :=
    spine_no_open 400 (0, 0) dist_spine_A (by norm_num)
  have h200 : ¬(((200 : ℚ) : ℝ) / nodeDistance (50, 0) (0, 0) < THETA) :=
    spine_no_open 200 (0, 0) dist_spine_A (by norm_num)
  have hBagg : ¬((1 : ℚ) = 0 ∨ ((0, 0) : Vec2) = ((100, 0) : Vec2)) := by
    norm_num [Prod.ext_iff]
  rw [show T2rootA = quad_node_t.node 2 (50, 0) b800 T2midA
      (quad_node_init ⟨400, 0, 400, 400⟩)
      (quad_node_init ⟨0, 400, 400, 400⟩)
      (quad_node_init ⟨400, 400, 400, 400⟩) from rfl]
  rw [velDelta_node_rec _ _ _ _ _ _ _ _ _ _ hskip h800]
  rw [velDelta_skip THETA (quad_node_init ⟨400, 0, 400, 400⟩) 1 (0, 0)
      (Or.inl rfl),
    velDelta_skip THETA (quad_node_init ⟨0, 400, 400, 400⟩) 1 (0, 0)
      (Or.inl rfl),
    velDelta_skip THETA (quad_node_init ⟨400, 400, 400, 400⟩) 1 (0, 0)
      (Or.inl rfl)]
  rw [show T2midA = quad_node_t.node 2 (50, 0) ⟨0, 0, 400, 400⟩ T2sepA
      (quad_node_init ⟨200, 0, 200, 200⟩)
      (quad_node_init ⟨0, 200, 200, 200⟩)
      (quad_node_init ⟨200, 200, 200, 200⟩) from rfl]
  rw [velDelta_node_rec _ _ _ _ _ _ _ _ _ _ hskip h400]
  rw [velDelta_skip THETA (quad_node_init ⟨200, 0, 200, 200⟩) 1 (0, 0)
      (Or.inl rfl),
    velDelta_skip THETA (quad_node_init ⟨0, 200, 200, 200⟩) 1 (0, 0)
      (Or.inl rfl),
    velDelta_skip THETA (quad_node_init ⟨200, 200, 200, 200⟩) 1 (0, 0)
      (Or.inl rfl)]
  rw [show T2sepA = quad_node_t.node 2 (50, 0) ⟨0, 0, 200, 200⟩
      (.leaf 1 (0, 0) ⟨0, 0, 100, 100⟩ (some ptA))
      (.leaf 1 (100, 0) ⟨100, 0, 100, 100⟩ (some ptB))
      (quad_node_init ⟨0, 100, 100, 100⟩)
      (quad_node_init ⟨100, 100, 100, 100⟩) from rfl]
  rw [velDelta_node_rec _ _ _ _ _ _ _ _ _ _ hskip h200]
  rw [velDelta_skip THETA (.leaf 1 (0, 0) ⟨0, 0, 100, 100⟩ (some ptA))
      1 (0, 0) (Or.inr rfl)]
  rw [velDelta_leaf_agg THETA 1 (100, 0) ⟨100, 0, 100, 100⟩ (some ptB)
      1 (0, 0) hBagg]
  rw [velDelta_skip THETA (quad_node_init ⟨0, 100, 100, 100⟩) 1 (0, 0)
      (Or.inl rfl),
    velDelta_skip THETA (quad_node_init ⟨100, 100, 100, 100⟩) 1 (0, 0)
      (Or.inl rfl)]
  simp

/-- Traversal of the aggregated two-point tree for the point at
`(100, 0)`: symmetric to the origin's traversal. -/
lemma velDelta_T2rootA_B :
    velDelta THETA T2rootA 1 (100, 0) = aggDelta 1 (0, 0) 1 (100, 0) := by
  have hskip : ¬((2 : ℚ) = 0 ∨ ((100, 0) : Vec2) = ((50, 0) : Vec2)) := by
    norm_num [Prod.ext_iff]
  have h800 : ¬(((800 : ℚ) : ℝ) / nodeDistance (50, 0) (100, 0) < THETA) :=
    spine_no_open 800 (100, 0) dist_spine_B (by norm_num)
  have h400 : ¬(((400 : ℚ) : ℝ) / nodeDistance (50, 0) (100, 0) < THETA) :=
    spine_no_open 400 (100, 0) dist_spine_B (by norm_num)
  have h200 : ¬(((200 : ℚ) : ℝ) / nodeDistance (50, 0) (100, 0) < THETA) :=
    spine_no_open 200 (100, 0) dist_spine_B (by norm_num)
  have hAagg : ¬((1 : ℚ) = 0 ∨ ((100, 0) : Vec2) = ((0, 0) : Vec2)) := by
    norm_num [Prod.ext_iff]
  rw [show T2rootA = quad_node_t.node 2 (50, 0) b800 T2midA
      (quad_node_init ⟨400, 0, 400, 400⟩)
      (quad_node_init ⟨0, 400, 400, 400⟩)
      (quad_node_init ⟨400, 400, 400, 400⟩) from rfl]
  rw [velDelta_node_rec _ _ _ _ _ _ _ _ _ _ hskip h800]
  rw [velDelta_skip THETA (quad_node_init ⟨400, 0, 400, 400⟩) 1 (100, 0)
      (Or.inl rfl),
    velDelta_skip THETA (quad_node_init ⟨0, 400, 400, 400⟩) 1 (100, 0)
      (Or.inl rfl),
    velDelta_skip THETA (quad_node_init ⟨400, 400, 400, 400⟩) 1 (100, 0)
      (Or.inl rfl)]
  rw [show T2midA = quad_node_t.node 2 (50, 0) ⟨0, 0, 400, 400⟩ T2sepA
      (quad_node_init ⟨200, 0, 200, 200⟩)
      (quad_node_init ⟨0, 200, 200, 200⟩)
      (quad_node_init ⟨200, 200, 200, 200⟩) from rfl]
  rw [velDelta_node_rec _ _ _ _ _ _ _ _ _ _ hskip h400]
  rw [velDelta_skip THETA (quad_node_init ⟨200, 0, 200, 200⟩) 1 (100, 0)
      (Or.inl rfl),
    velDelta_skip THETA (quad_node_init ⟨0, 200, 200, 200⟩) 1 (100, 0)
      (Or.inl rfl),
    velDelta_skip THETA (quad_node_init ⟨200, 200, 200, 200⟩) 1 (100, 0)
      (Or.inl rfl)]
  rw [show T2sepA = quad_node_t.node 2 (50, 0) ⟨0, 0, 200, 200⟩
      (.leaf 1 (0, 0) ⟨0, 0, 100, 100⟩ (some ptA))
      (.leaf 1 (100, 0) ⟨100, 0, 100, 100⟩ (some ptB))
      (quad_node_init ⟨0, 100, 100, 100⟩)
      (quad_node_init ⟨100, 100, 100, 100⟩) from rfl]
  rw [velDelta_node_rec _ _ _ _ _ _ _ _ _ _ hskip h200]
  rw [velDelta_leaf_agg THETA 1 (0, 0) ⟨0, 0, 100, 100⟩ (some ptA)
      1 (100, 0) hAagg]
  rw [velDelta_skip THETA (.leaf 1 (100, 0) ⟨100, 0, 100, 100⟩ (some ptB))
      1 (100, 0) (Or.inr rfl)]
  rw [velDelta_skip THETA (quad_node_init ⟨0, 100, 100, 100⟩) 1 (100, 0)
      (Or.inl rfl),
    velDelta_skip THETA (quad_node_init ⟨100, 100, 100, 100⟩) 1 (100, 0)
      (Or.inl rfl)]
  simp

/-- The velocity of the origin point after one force evaluation. -/
lemma C2_velA :
    (quad_node_compute_force T2rootA ⟨1, (0, 0), (0, 0)⟩).velocity =
      (1 / (1045 * Real.sqrt 10225), 0) := by
  rw [force_eq, force_shift]
  show ((0 : ℝ), (0 : ℝ)) + velDelta THETA T2rootA 1 (0, 0) =
    (1 / (1045 * Real.sqrt 10225), 0)
  rw [velDelta_T2rootA_A, aggDelta_BA]
  simp

/-- The velocity of the point at `(100, 0)` after one force evaluation. -/
lemma C2_velB :
    (quad_node_compute_force T2rootA ⟨1, (100, 0), (0, 0)⟩).velocity =
      (-(1 / (1045 * Real.sqrt 10225)), 0) := by
  rw [force_eq, force_shift]
  show ((0 : ℝ), (0 : ℝ)) + velDelta THETA T2rootA 1 (100, 0) =
    (-(1 / (1045 * Real.sqrt 10225)), 0)
  rw [velDelta_T2rootA_B, aggDelta_AB]
  simp

lemma sqrt10225_lt : Real.sqrt 10225 < 509 / 5 :=
  (Real.sqrt_lt' (by norm_num)).mpr (by norm_num)

lemma sqrt10225_gt : (1011 / 10 : ℝ) < Real.sqrt 10225 :=
  (Real.lt_sqrt (by norm_num)).mpr (by norm_num)

lemma d_gt : (94 / 10000000 : ℝ) < 1 / (1045 * Real.sqrt 10225) := by
  have h1 : (0 : ℝ) < 1045 * Real.sqrt 10225 := by positivity
  rw [lt_div_iff h1]
  linarith [sqrt10225_lt]

lemma d_lt : (1 / (1045 * Real.sqrt 10225) : ℝ) < 947 / 100000000 := by
  have h1 : (0 : ℝ) < 1045 * Real.sqrt 10225 := by positivity
  rw [div_lt_iff h1]
  linarith [sqrt10225_gt]

/-- Claim C2, counterexample to the claimed magnitude: in the two-point
scenario (masses 1 at `(0, 0)` and `(100, 0)`, world boundary
`[0, 0, 800, 800]`), one tick of build, aggregation and force evaluation
gives the two points the opposite velocity deltas `±(1/(1045·√10225), 0)`
along the x-axis, whose magnitude differs from the claimed
`0.1·1·1/(100² + 15²) = 9.78e-6` by more than 3 % of the claimed value:
the code softens the distance inside the direction scaling and adds the
softening term to the squared distance a second time in the force
denominator, so the actual magnitude is
`0.1·100/(10450·√10225) ≈ 9.46e-6`. -/
theorem C2_counterexample :
    buildTree b800 10 [ptA, ptB] = some T2root ∧
    quad_node_compute_mass T2root = T2rootA ∧
    (quad_node_compute_force T2rootA ⟨1, (0, 0), (0, 0)⟩).velocity =
      (1 / (1045 * Real.sqrt 10225), 0) ∧
    (quad_node_compute_force T2rootA ⟨1, (100, 0), (0, 0)⟩).velocity =
      (-(1 / (1045 * Real.sqrt 10225)), 0) ∧
    |1 / (1045 * Real.sqrt 10225) - 978 / 100000000| >
      3 / 100 * (978 / 100000000 : ℝ) := by
  refine ⟨treeTwo_build, treeTwo_aggregate, C2_velA, C2_velB, ?_⟩
  have h1 := d_lt
  have h2 := d_gt
  rw [abs_of_neg (by linarith)]
  linarith

/-- Claim C2, amended: in the two-point scenario the velocity deltas are
equal in magnitude and opposite along the x-axis, of magnitude
`1/(1045·√10225)`, which lies strictly between `9.4e-6` and `9.47e-6`
(approximately `9.46e-6`, not the claimed `9.78e-6`). -/
theorem C2_amended :
    ∃ d : ℝ,
      buildTree b800 10 [ptA, ptB] = some T2root ∧
      (quad_node_compute_force (quad_node_compute_mass T2root)
          ⟨1, (0, 0), (0, 0)⟩).velocity = (d, 0) ∧
      (quad_node_compute_force (quad_node_compute_mass T2root)
          ⟨1, (100, 0), (0, 0)⟩).velocity = (-d, 0) ∧
      94 / 10000000 < d ∧ d < 947 / 100000000 := by
  refine ⟨1 / (1045 * Real.sqrt 10225), treeTwo_build, ?_, ?_, d_gt, d_lt⟩
  · rw [treeTwo_aggregate]
    exact C2_velA
  · rw [treeTwo_aggregate]
    exact C2_velB

end BarnesHut
